import Mathlib

/-!
# Verification of the pyfar `.far` archive read/write engine

Shallow embedding of `src/pyfar/io/io.py` (the functions `read` and `write`)
together with the codec layer it drives.  The `_codec` module itself is not
part of the source tree; every definition that stands in for it is marked
`Modelled from the spec:` in its doc comment and follows the natural-language
specification (sections 3, 4.2, 4.3, 4.4).

Conventions of the embedding:
- Python strings are Lean `String`s; reasoning happens on their `List Char`
  data.
- Python dicts are association lists with insert-or-overwrite semantics
  (`dinsert`), lookup (`dlookup`) and `pop` (`dpop`).
- Exceptions are `Except String`; a `.error` result of `write` corresponds to
  a raised exception before the destination file is opened (in the source the
  output file is only opened after the encoding loop has finished), so an
  error result implies that no file is created or modified.
- Floating point payloads are represented by their IEEE-754 bit patterns
  (`Nat`); the text codec round-trips them via exact decimal representation,
  which the model treats as the identity on bit patterns.
-/

namespace Pyfar

/-! ## String utilities -/

/-- Index of the last occurrence of a dot in a character list
(Python `str.rfind`, specialised to the dot character). -/
def rfindDot : List Char → Option Nat
  | [] => none
  | c :: cs =>
    match rfindDot cs with
    | some i => some (i + 1)
    | none => if c = '.' then some 0 else none

/-- Modelled from the spec: `pathlib.Path.suffix` for a plain file name
(no directory separators): the final dot-extension, empty if the last dot is
the first character or the last character. -/
def pathSuffix (name : String) : String :=
  match rfindDot name.toList with
  | some i =>
    if 0 < i ∧ i + 1 < name.toList.length then String.mk (name.toList.drop i) else ""
  | none => ""

/-- Modelled from the spec: `pathlib.Path(filename).with_suffix(".far")`
as used by `write` (io.py line 268) and `read` (io.py line 204) on a plain
file name: the existing dot-extension, if any, is removed and `.far` is
appended. -/
def with_suffix_far (name : String) : String :=
  match rfindDot name.toList with
  | some i =>
    if 0 < i ∧ i + 1 < name.toList.length then
      String.mk (name.toList.take i ++ ".far".toList)
    else String.mk (name.toList ++ ".far".toList)
  | none => String.mk (name.toList ++ ".far".toList)

/-- Python `hint[1:]` — a string with its first character removed. -/
def strTail (s : String) : String := String.mk (s.toList.drop 1)

/-- Does a character list contain the two-character marker `/$`?
Models the Python test `'/$' in path` (io.py line 213). -/
def hasSlashDollar : List Char → Bool
  | [] => false
  | [_] => false
  | c :: d :: rest => (c == '/' && d == '$') || hasSlashDollar (d :: rest)

/-- String form of `hasSlashDollar`. -/
def hasSlashDollarS (s : String) : Bool := hasSlashDollar s.toList

/-- Python `path.split('/')` on character lists, matching Python `str.split` with a
one-character separator (empty parts are kept). -/
def splitSlashL : List Char → List (List Char)
  | [] => [[]]
  | c :: rest =>
    if c = '/' then [] :: splitSlashL rest
    else
      match splitSlashL rest with
      | [] => [[c]]
      | p :: ps => (c :: p) :: ps

/-- Python `path.split('/')` on strings. -/
def splitSlash (s : String) : List String := (splitSlashL s.toList).map String.mk

/-- A string without the path separator character. -/
def noSlashStr (s : String) : Prop := '/' ∉ s.toList

instance (s : String) : Decidable (noSlashStr s) := by
  unfold noSlashStr; infer_instance

/-! ### Lemmas about the string utilities -/

theorem string_data_append (a b : String) : (a ++ b).data = a.data ++ b.data := rfl

theorem string_mk_toList (s : String) : String.mk s.toList = s := rfl

theorem not_mem_of_not_mem_cons {c x : Char} {cs : List Char}
    (h : x ∉ c :: cs) : x ∉ cs :=
  fun hm => h (List.mem_cons_of_mem _ hm)

theorem head_ne_of_not_mem {c x : Char} {cs : List Char}
    (h : x ∉ c :: cs) : c ≠ x :=
  fun he => h (he ▸ List.mem_cons_self c cs)

theorem splitSlashL_append {xs ys : List Char} (h : '/' ∉ xs) :
    splitSlashL (xs ++ '/' :: ys) = xs :: splitSlashL ys := by
  induction xs with
  | nil => simp [splitSlashL]
  | cons c cs ih =>
    have hc : c ≠ '/' := head_ne_of_not_mem h
    rw [List.cons_append, splitSlashL, if_neg hc, ih (not_mem_of_not_mem_cons h)]

theorem splitSlashL_noSlash {xs : List Char} (h : '/' ∉ xs) :
    splitSlashL xs = [xs] := by
  induction xs with
  | nil => rfl
  | cons c cs ih =>
    have hc : c ≠ '/' := head_ne_of_not_mem h
    rw [splitSlashL, if_neg hc, ih (not_mem_of_not_mem_cons h)]

theorem hasSlashDollar_append {xs ys : List Char} (h : '/' ∉ xs) :
    hasSlashDollar (xs ++ '/' :: '$' :: ys) = true := by
  induction xs with
  | nil => simp [hasSlashDollar]
  | cons c cs ih =>
    cases cs with
    | nil => simp [hasSlashDollar]
    | cons d ds =>
      rw [List.cons_append, List.cons_append, hasSlashDollar, ← List.cons_append,
        ih (not_mem_of_not_mem_cons h)]
      simp

/-- Two slash-free first segments followed by `/` agree when the joined
character lists agree. -/
theorem slash_head_inj {a b x y : List Char}
    (ha : '/' ∉ a) (hb : '/' ∉ b)
    (h : a ++ '/' :: x = b ++ '/' :: y) : a = b ∧ x = y := by
  induction a generalizing b with
  | nil =>
    cases b with
    | nil => simpa using h
    | cons d ds =>
      exfalso
      simp only [List.nil_append, List.cons_append, List.cons.injEq] at h
      exact (head_ne_of_not_mem hb) h.1.symm
  | cons c cs ih =>
    cases b with
    | nil =>
      exfalso
      simp only [List.nil_append, List.cons_append, List.cons.injEq] at h
      exact (head_ne_of_not_mem ha) h.1
    | cons d ds =>
      simp only [List.cons_append, List.cons.injEq] at h
      obtain ⟨h1, h2⟩ := ih (not_mem_of_not_mem_cons ha) (not_mem_of_not_mem_cons hb) h.2
      exact ⟨by rw [h.1, h1], h2⟩

/-! ## Python dict model (association lists with insertion order) -/

/-- Lookup in a Python dict: first binding of the key wins (keys produced by
`dinsert` are unique, so this is the dict entry). -/
def dlookup {α : Type} : List (String × α) → String → Option α
  | [], _ => none
  | (k, v) :: rest, key => if k = key then some v else dlookup rest key

/-- Assignment `d[key] = v`: overwrite in place if the key exists, append otherwise. -/
def dinsert {α : Type} : List (String × α) → String → α → List (String × α)
  | [], key, v => [(key, v)]
  | (k, w) :: rest, key, v =>
    if k = key then (k, v) :: rest else (k, w) :: dinsert rest key v

/-- Python `d.pop(key)`: remove the binding of the key (first occurrence). -/
def dpop {α : Type} : List (String × α) → String → List (String × α)
  | [], _ => []
  | (k, v) :: rest, key => if k = key then rest else (k, v) :: dpop rest key

/-- Fold a batch of assignments into a dict. -/
def dinsertAll {α : Type} : List (String × α) → List (String × α) → List (String × α)
  | m, [] => m
  | m, (k, v) :: rest => dinsertAll (dinsert m k v) rest

/-- Keys of a dict, in order. -/
def dkeys {α : Type} (m : List (String × α)) : List String := m.map Prod.fst

/-! ### Dict lemmas -/

theorem dlookup_append_left {α : Type} {m₁ : List (String × α)} (m₂ : List (String × α))
    {k : String} {v : α} (h : dlookup m₁ k = some v) :
    dlookup (m₁ ++ m₂) k = some v := by
  induction m₁ with
  | nil => simp [dlookup] at h
  | cons p rest ih =>
    obtain ⟨a, b⟩ := p
    rw [dlookup] at h
    rw [List.cons_append, dlookup]
    by_cases hak : a = k
    · rwa [if_pos hak] at h ⊢
    · rw [if_neg hak] at h ⊢
      exact ih h

theorem dlookup_append_right {α : Type} {m₁ : List (String × α)} (m₂ : List (String × α))
    {k : String} (h : dlookup m₁ k = none) :
    dlookup (m₁ ++ m₂) k = dlookup m₂ k := by
  induction m₁ with
  | nil => rfl
  | cons p rest ih =>
    obtain ⟨a, b⟩ := p
    rw [dlookup] at h
    rw [List.cons_append, dlookup]
    by_cases hak : a = k
    · rw [if_pos hak] at h; exact absurd h (by simp)
    · rw [if_neg hak] at h ⊢
      exact ih h

theorem dlookup_of_not_keys {α : Type} {m : List (String × α)} {k : String}
    (h : k ∉ dkeys m) : dlookup m k = none := by
  induction m with
  | nil => rfl
  | cons p rest ih =>
    obtain ⟨a, b⟩ := p
    have ha : a ≠ k := fun he => h (he ▸ List.mem_cons_self _ _)
    rw [dlookup, if_neg ha]
    exact ih (fun hm => h (List.mem_cons_of_mem _ hm))

theorem dlookup_mem_nodup {α : Type} {m : List (String × α)} {k : String} {v : α}
    (hnd : (dkeys m).Nodup) (hmem : (k, v) ∈ m) : dlookup m k = some v := by
  induction m with
  | nil => simp at hmem
  | cons p rest ih =>
    obtain ⟨a, b⟩ := p
    rw [dlookup]
    rcases List.mem_cons.mp hmem with heq | hmem'
    · injection heq with x y
      rw [if_pos x.symm, y]
    · have hnd' := hnd
      rw [dkeys, List.map_cons, List.nodup_cons] at hnd'
      have hak : a ≠ k := by
        intro he
        apply hnd'.1
        rw [he]
        exact List.mem_map.mpr ⟨(k, v), hmem', rfl⟩
      rw [if_neg hak]
      exact ih hnd'.2 hmem'

theorem dinsert_fresh {α : Type} {m : List (String × α)} {k : String} (v : α)
    (h : dlookup m k = none) : dinsert m k v = m ++ [(k, v)] := by
  induction m with
  | nil => rfl
  | cons p rest ih =>
    obtain ⟨a, b⟩ := p
    rw [dlookup] at h
    by_cases hak : a = k
    · rw [if_pos hak] at h; exact absurd h (by simp)
    · rw [if_neg hak] at h
      rw [dinsert, if_neg hak, List.cons_append, ih h]

theorem dpop_not_keys {α : Type} {m₁ m₂ : List (String × α)} {k : String}
    (h : k ∉ dkeys m₁) : dpop (m₁ ++ m₂) k = m₁ ++ dpop m₂ k := by
  induction m₁ with
  | nil => rfl
  | cons p rest ih =>
    obtain ⟨a, b⟩ := p
    have ha : a ≠ k := fun he => h (he ▸ List.mem_cons_self _ _)
    rw [List.cons_append, dpop, if_neg ha, List.cons_append,
      ih (fun hm => h (List.mem_cons_of_mem _ hm))]

theorem dpop_cons_self {α : Type} (m : List (String × α)) (k : String) (v : α) :
    dpop ((k, v) :: m) k = m := by
  rw [dpop, if_pos rfl]

theorem dlookup_dpop_ne {α : Type} {m : List (String × α)} {k key : String}
    (h : key ≠ k) : dlookup (dpop m k) key = dlookup m key := by
  induction m with
  | nil => rfl
  | cons p rest ih =>
    obtain ⟨a, b⟩ := p
    by_cases hak : a = k
    · rw [dpop, if_pos hak, dlookup, if_neg (by rw [hak]; exact fun he => h he.symm)]
    · rw [dpop, if_neg hak, dlookup, dlookup]
      by_cases hakey : a = key
      · rw [if_pos hakey, if_pos hakey]
      · rw [if_neg hakey, if_neg hakey, ih]

theorem dinsertAll_fresh {α : Type} {adds : List (String × α)} {m : List (String × α)}
    (hfresh : ∀ p ∈ adds, dlookup m p.1 = none)
    (hnd : (dkeys adds).Nodup) : dinsertAll m adds = m ++ adds := by
  induction adds generalizing m with
  | nil => simp [dinsertAll]
  | cons p rest ih =>
    obtain ⟨k, v⟩ := p
    rw [dinsertAll, dinsert_fresh v (hfresh (k, v) (List.mem_cons_self _ _))]
    rw [dkeys, List.map_cons, List.nodup_cons] at hnd
    rw [ih ?_ hnd.2, List.append_assoc]
    · rfl
    · intro q hq
      have hqk : q.1 ≠ k := by
        intro he
        apply hnd.1
        rw [← he]
        exact List.mem_map.mpr ⟨q, hq, rfl⟩
      rw [dlookup_append_right [(k, v)] (hfresh q (List.mem_cons_of_mem _ hq)),
        dlookup, if_neg (fun he => hqk he.symm)]
      rfl

/-! ## Generic values and the structured-text tree

Modelled from the spec (section 4.3): the closed set of supported builtin
kinds `{bool, bytes, complex, float, frozenset, int, list, set, str, tuple}`
and the structured-text (JSON-like) tree the GenericCodec targets, which
natively distinguishes only ordered sequences and key-value mappings. -/

mutual
inductive GenVal : Type where
  | bool (b : Bool)
  | bytes (bs : List Nat)
  | complex (re im : Nat)
  | float (bits : Nat)
  | int (n : Int)
  | str (s : String)
  | list (xs : GenList)
  | set (xs : GenList)
  | frozenset (xs : GenList)
  | tuple (xs : GenList)
inductive GenList : Type where
  | nil
  | cons (x : GenVal) (xs : GenList)
end

mutual
inductive Json : Type where
  | jnull
  | jbool (b : Bool)
  | jint (n : Int)
  | jnum (bits : Nat)
  | jstr (s : String)
  | jarr (xs : JsonArr)
  | jobj (fs : JsonObj)
inductive JsonArr : Type where
  | nil
  | cons (x : Json) (xs : JsonArr)
inductive JsonObj : Type where
  | nil
  | cons (k : String) (v : Json) (fs : JsonObj)
end

/-- Byte-string payload as a text array of integers. -/
def bytesToArr : List Nat → JsonArr
  | [] => .nil
  | b :: bs => .cons (.jint (Int.ofNat b)) (bytesToArr bs)

/-- Inverse of `bytesToArr`; fails on non-integer or negative items. -/
def arrToBytes : JsonArr → Option (List Nat)
  | .nil => some []
  | .cons (.jint (Int.ofNat b)) xs => (arrToBytes xs).map (b :: ·)
  | .cons _ _ => none

theorem arrToBytes_bytesToArr (bs : List Nat) : arrToBytes (bytesToArr bs) = some bs := by
  induction bs with
  | nil => rfl
  | cons b bs ih =>
    show (arrToBytes (bytesToArr bs)).map (b :: ·) = some (b :: bs)
    rw [ih]
    rfl

mutual
/-- Modelled from the spec: the GenericCodec encoding (section 4.3).  Kinds
that are native to the text format are encoded directly; every non-native
kind (byte-string, complex, set, frozen-set, fixed tuple) is wrapped in a
tagged envelope keyed by the reserved marker `$kind` so decode can restore
the exact original kind. -/
def encodeGen : GenVal → Json
  | .bool b => .jbool b
  | .bytes bs =>
    .jobj (.cons "$kind" (.jstr "bytes") (.cons "items" (.jarr (bytesToArr bs)) .nil))
  | .complex re im =>
    .jobj (.cons "$kind" (.jstr "complex") (.cons "re" (.jnum re) (.cons "im" (.jnum im) .nil)))
  | .float bits => .jnum bits
  | .int n => .jint n
  | .str s => .jstr s
  | .list xs => .jarr (encodeGenArr xs)
  | .set xs =>
    .jobj (.cons "$kind" (.jstr "set") (.cons "items" (.jarr (encodeGenArr xs)) .nil))
  | .frozenset xs =>
    .jobj (.cons "$kind" (.jstr "frozenset") (.cons "items" (.jarr (encodeGenArr xs)) .nil))
  | .tuple xs =>
    .jobj (.cons "$kind" (.jstr "tuple") (.cons "items" (.jarr (encodeGenArr xs)) .nil))
/-- Elementwise generic encoding of an ordered sequence. -/
def encodeGenArr : GenList → JsonArr
  | .nil => .nil
  | .cons x xs => .cons (encodeGen x) (encodeGenArr xs)
end

mutual
/-- Modelled from the spec: the GenericCodec decoding (section 4.3).  A
mapping node is only meaningful through its `$kind` envelope; decode fails
(`none`) when the tag is absent or unrecognized. -/
def decodeGen : Json → Option GenVal
  | .jnull => none
  | .jbool b => some (.bool b)
  | .jint n => some (.int n)
  | .jnum bits => some (.float bits)
  | .jstr s => some (.str s)
  | .jarr xs => (decodeGenArr xs).map .list
  | .jobj (.cons "$kind" (.jstr "bytes") (.cons "items" (.jarr a) .nil)) =>
    (arrToBytes a).map .bytes
  | .jobj (.cons "$kind" (.jstr "complex") (.cons "re" (.jnum re) (.cons "im" (.jnum im) .nil))) =>
    some (.complex re im)
  | .jobj (.cons "$kind" (.jstr "set") (.cons "items" (.jarr a) .nil)) =>
    (decodeGenArr a).map .set
  | .jobj (.cons "$kind" (.jstr "frozenset") (.cons "items" (.jarr a) .nil)) =>
    (decodeGenArr a).map .frozenset
  | .jobj (.cons "$kind" (.jstr "tuple") (.cons "items" (.jarr a) .nil)) =>
    (decodeGenArr a).map .tuple
  | .jobj _ => none
/-- Elementwise generic decoding of a text array. -/
def decodeGenArr : JsonArr → Option GenList
  | .nil => some .nil
  | .cons x xs =>
    match decodeGen x, decodeGenArr xs with
    | some v, some vs => some (.cons v vs)
    | _, _ => none
end

mutual
/-- Generic-codec round trip: decoding an encoded generic value restores it. -/
def decodeGen_encodeGen : (v : GenVal) → decodeGen (encodeGen v) = some v
  | .bool _ => rfl
  | .bytes bs => by
    show (arrToBytes (bytesToArr bs)).map GenVal.bytes = some (GenVal.bytes bs)
    rw [arrToBytes_bytesToArr]
    rfl
  | .complex _ _ => rfl
  | .float _ => rfl
  | .int _ => rfl
  | .str _ => rfl
  | .list xs => by
    show (decodeGenArr (encodeGenArr xs)).map GenVal.list = some (GenVal.list xs)
    rw [decodeGenArr_encodeGenArr xs]
    rfl
  | .set xs => by
    show (decodeGenArr (encodeGenArr xs)).map GenVal.set = some (GenVal.set xs)
    rw [decodeGenArr_encodeGenArr xs]
    rfl
  | .frozenset xs => by
    show (decodeGenArr (encodeGenArr xs)).map GenVal.frozenset = some (GenVal.frozenset xs)
    rw [decodeGenArr_encodeGenArr xs]
    rfl
  | .tuple xs => by
    show (decodeGenArr (encodeGenArr xs)).map GenVal.tuple = some (GenVal.tuple xs)
    rw [decodeGenArr_encodeGenArr xs]
    rfl
/-- Elementwise generic-codec round trip. -/
def decodeGenArr_encodeGenArr : (xs : GenList) → decodeGenArr (encodeGenArr xs) = some xs
  | .nil => rfl
  | .cons x xs => by
    show (match decodeGen (encodeGen x), decodeGenArr (encodeGenArr xs) with
      | some v, some vs => some (GenList.cons v vs)
      | _, _ => none) = some (GenList.cons x xs)
    rw [decodeGen_encodeGen x, decodeGenArr_encodeGenArr xs]
end

/-! ## Little-endian byte packing for the array codec -/

/-- Little-endian byte serialisation of a machine integer of width `w` bytes. -/
def natToLE : Nat → Nat → List Nat
  | 0, _ => []
  | w + 1, n => n % 256 :: natToLE w (n / 256)

/-- Little-endian byte deserialisation. -/
def natFromLE : List Nat → Nat
  | [] => 0
  | b :: bs => b + 256 * natFromLE bs

theorem natToLE_length : ∀ w n, (natToLE w n).length = w
  | 0, _ => rfl
  | w + 1, n => by rw [natToLE, List.length_cons, natToLE_length w]

theorem natFromLE_natToLE : ∀ w n, n < 256 ^ w → natFromLE (natToLE w n) = n := by
  intro w
  induction w with
  | zero =>
    intro n hn
    interval_cases n
    rfl
  | succ w ih =>
    intro n hn
    rw [natToLE, natFromLE, ih (n / 256) ?_, Nat.mod_add_div]
    rw [Nat.div_lt_iff_lt_mul (by norm_num)]
    calc n < 256 ^ (w + 1) := hn
    _ = 256 ^ w * 256 := by rw [pow_succ]

/-- Split a byte stream into `k` chunks of `w` bytes each. -/
def chunksN : Nat → Nat → List Nat → List (List Nat)
  | 0, _, _ => []
  | k + 1, w, bs => bs.take w :: chunksN k w (bs.drop w)

theorem chunksN_flatten : ∀ (ls : List (List Nat)) w, (∀ l ∈ ls, l.length = w) →
    chunksN ls.length w ls.flatten = ls := by
  intro ls
  induction ls with
  | nil => intro w _; rfl
  | cons l rest ih =>
    intro w hw
    have hl : l.length = w := hw l (List.mem_cons_self _ _)
    rw [List.length_cons, List.flatten_cons, chunksN, ← hl, List.take_left, List.drop_left,
      ih l.length (fun x hx => (hw x (List.mem_cons_of_mem _ hx)).trans hl.symm)]

theorem flatten_map_natToLE_length (w : Nat) : ∀ data : List Nat,
    ((data.map (natToLE w)).flatten).length = data.length * w := by
  intro data
  induction data with
  | nil => simp
  | cons x xs ih =>
    rw [List.map_cons, List.flatten_cons, List.length_append, ih, natToLE_length,
      List.length_cons, Nat.succ_mul, Nat.add_comm]

/-! ## Array codec

Modelled from the spec (sections 3 and 4.2): an array payload consists of an
element-type tag from a fixed enumeration, a shape, a byte order and raw
contiguous little-endian bytes whose length must equal the product of the
shape times the element width.  Elements are carried as their bit patterns. -/

inductive DType : Type where
  | int8 | int16 | int32 | int64
  | uint8 | uint16 | uint32 | uint64
  | float32 | float64 | complex64 | complex128
deriving DecidableEq

/-- Element width in bytes (complex widths count both components). -/
def itemsize : DType → Nat
  | .int8 => 1 | .uint8 => 1
  | .int16 => 2 | .uint16 => 2
  | .int32 => 4 | .uint32 => 4
  | .int64 => 8 | .uint64 => 8
  | .float32 => 4 | .float64 => 8
  | .complex64 => 8 | .complex128 => 16

/-- Name of the element type as written into array headers. -/
def dtypeName : DType → String
  | .int8 => "int8" | .uint8 => "uint8"
  | .int16 => "int16" | .uint16 => "uint16"
  | .int32 => "int32" | .uint32 => "uint32"
  | .int64 => "int64" | .uint64 => "uint64"
  | .float32 => "float32" | .float64 => "float64"
  | .complex64 => "complex64" | .complex128 => "complex128"

/-- Inverse of `dtypeName`; `none` on an unsupported element-type name. -/
def dtypeOfName : String → Option DType
  | "int8" => some .int8 | "uint8" => some .uint8
  | "int16" => some .int16 | "uint16" => some .uint16
  | "int32" => some .int32 | "uint32" => some .uint32
  | "int64" => some .int64 | "uint64" => some .uint64
  | "float32" => some .float32 | "float64" => some .float64
  | "complex64" => some .complex64 | "complex128" => some .complex128
  | _ => none

theorem dtypeOfName_dtypeName (d : DType) : dtypeOfName (dtypeName d) = some d := by
  cases d <;> rfl

/-- A rectangular numeric buffer: element type, shape, and one bit pattern
per element. -/
structure NDArray : Type where
  dtype : DType
  shape : List Nat
  data : List Nat
deriving DecidableEq

/-- Well-formedness: one element per cell of the shape, each element within
the width of the element type. -/
def NDArray.wfb (a : NDArray) : Bool :=
  (a.data.length == a.shape.prod) &&
    a.data.all fun x => decide (x < 256 ^ itemsize a.dtype)

/-- Array-entry header: element type, shape, byte order. -/
structure ArrHeader : Type where
  dtype : DType
  shape : List Nat
  littleEndian : Bool
deriving DecidableEq

/-- Modelled from the spec: the ArrayCodec encode half — header plus raw
little-endian bytes (section 4.2). -/
def arrHeader (a : NDArray) : ArrHeader := ⟨a.dtype, a.shape, true⟩

/-- Raw contiguous bytes of an array, little-endian per element. -/
def arrBytes (a : NDArray) : List Nat :=
  (a.data.map (natToLE (itemsize a.dtype))).flatten

/-- Modelled from the spec: the ArrayCodec decode half; fails when the byte
length disagrees with the header-implied size (section 4.2). -/
def decodeArr (hdr : ArrHeader) (bytes : List Nat) : Option NDArray :=
  let w := itemsize hdr.dtype
  let n := hdr.shape.prod
  if bytes.length = n * w ∧ hdr.littleEndian = true then
    some ⟨hdr.dtype, hdr.shape, (chunksN n w bytes).map natFromLE⟩
  else none

/-- Array-codec round trip for well-formed arrays. -/
theorem decodeArr_arrBytes (a : NDArray) (h : a.wfb = true) :
    decodeArr (arrHeader a) (arrBytes a) = some a := by
  obtain ⟨dt, sh, da⟩ := a
  rw [NDArray.wfb, Bool.and_eq_true, beq_iff_eq] at h
  obtain ⟨hlen', hall'⟩ := h
  have hlen : da.length = sh.prod := hlen'
  have hall : (da.all fun x => decide (x < 256 ^ itemsize dt)) = true := hall'
  have hbound : ∀ x ∈ da, x < 256 ^ itemsize dt := by
    intro x hx
    exact of_decide_eq_true (List.all_eq_true.mp hall x hx)
  simp only [decodeArr, arrHeader, arrBytes]
  rw [if_pos ⟨by rw [flatten_map_natToLE_length, hlen], trivial⟩]
  have hn : sh.prod = (da.map (natToLE (itemsize dt))).length := by
    rw [List.length_map, hlen]
  rw [hn, chunksN_flatten (da.map (natToLE (itemsize dt))) (itemsize dt)
    (by intro l hl; obtain ⟨x, _, hx⟩ := List.mem_map.mp hl; rw [← hx, natToLE_length])]
  rw [List.map_map]
  have hmap : List.map (natFromLE ∘ natToLE (itemsize dt)) da = List.map id da :=
    List.map_congr_left (fun x hx => natFromLE_natToLE (itemsize dt) x (hbound x hx))
  rw [hmap, List.map_id]

/-! ## Values of the archive engine

`FarVal` is the common shape of decoded objects: a composite record with a
type tag and named fields (section 4.4), an array, or a generic value.
Fields recurse through the same three categories. -/

mutual
inductive FarVal : Type where
  | comp (tag : String) (fields : Fields)
  | arr (a : NDArray)
  | gen (g : GenVal)
inductive Fields : Type where
  | fnil
  | fcons (name : String) (v : FarVal) (rest : Fields)
end

/-- Fields as an association list. -/
def fieldsToList : Fields → List (String × FarVal)
  | .fnil => []
  | .fcons n v fs => (n, v) :: fieldsToList fs

/-- Association list as fields. -/
def fieldsOfList : List (String × FarVal) → Fields
  | [] => .fnil
  | (n, v) :: rest => .fcons n v (fieldsOfList rest)

theorem fieldsToList_fieldsOfList (l : List (String × FarVal)) :
    fieldsToList (fieldsOfList l) = l := by
  induction l with
  | nil => rfl
  | cons p rest ih =>
    obtain ⟨n, v⟩ := p
    rw [fieldsOfList, fieldsToList, ih]

mutual
/-- Recursive well-formedness of a value: every array it contains is
well-formed. -/
def valWFb : FarVal → Bool
  | .comp _ fs => fieldsWFb fs
  | .arr a => a.wfb
  | .gen _ => true
/-- Well-formedness of a field list. -/
def fieldsWFb : Fields → Bool
  | .fnil => true
  | .fcons _ v fs => valWFb v && fieldsWFb fs
end

mutual
/-- Modelled from the spec: the json-aided encoding of one object
(`_codec._encode_object_json_aided` is not under src).  A composite record
becomes a mapping node with a `$kind` envelope carrying its tag and its
recursively encoded fields (section 4.4); a nested array is embedded with
its header data and raw bytes (section 4.2); a generic field is encoded by
the GenericCodec directly (section 4.3). -/
def encodeFar : FarVal → Json
  | .comp tag fs =>
    .jobj (.cons "$kind" (.jstr "composite") (.cons "tag" (.jstr tag)
      (.cons "fields" (.jobj (encodeFields fs)) .nil)))
  | .arr a =>
    .jobj (.cons "$kind" (.jstr "ndarray") (.cons "dtype" (.jstr (dtypeName a.dtype))
      (.cons "shape" (.jarr (bytesToArr a.shape)) (.cons "order" (.jstr "little")
      (.cons "data" (.jarr (bytesToArr (arrBytes a))) .nil)))))
  | .gen g => encodeGen g
/-- Encoded fields of a composite record, in order. -/
def encodeFields : Fields → JsonObj
  | .fnil => .nil
  | .fcons n v fs => .cons n (encodeFar v) (encodeFields fs)
end

mutual
/-- Modelled from the spec: the json-aided decoding of one object
(`_codec._decode_object_json_aided` is not under src).  The `$kind`
envelopes written by `encodeFar` select composite or array decoding; every
other node is decoded by the GenericCodec. -/
def decodeFar : Json → Option FarVal
  | .jobj (.cons "$kind" (.jstr "composite") (.cons "tag" (.jstr tag)
      (.cons "fields" (.jobj ffs) .nil))) =>
    (decodeFields ffs).map (FarVal.comp tag)
  | .jobj (.cons "$kind" (.jstr "ndarray") (.cons "dtype" (.jstr dn)
      (.cons "shape" (.jarr sh) (.cons "order" (.jstr ord)
      (.cons "data" (.jarr da) .nil))))) =>
    (dtypeOfName dn).bind fun dt =>
      (arrToBytes sh).bind fun shape =>
        (arrToBytes da).bind fun bytes =>
          if ord = "little" then (decodeArr ⟨dt, shape, true⟩ bytes).map FarVal.arr
          else none
  | j => (decodeGen j).map FarVal.gen
/-- Decoded fields of a composite record; fails if any field fails. -/
def decodeFields : JsonObj → Option Fields
  | .nil => some .fnil
  | .cons k v fs =>
    (decodeFar v).bind fun fv => (decodeFields fs).map (Fields.fcons k fv)
end

/-- On the image of the generic encoder, `decodeFar` falls through to the
generic decoder: no generic `$kind` envelope collides with the composite or
array envelopes. -/
theorem decodeFar_on_gen (g : GenVal) :
    decodeFar (encodeGen g) = (decodeGen (encodeGen g)).map FarVal.gen := by
  cases g <;> rfl

mutual
/-- Object-codec round trip: decoding an encoded well-formed value restores
it exactly. -/
def decodeFar_encodeFar : (v : FarVal) → valWFb v = true → decodeFar (encodeFar v) = some v
  | .comp tag fs, h => by
    show (decodeFields (encodeFields fs)).map (FarVal.comp tag) = some (FarVal.comp tag fs)
    rw [decodeFields_encodeFields fs h]
    rfl
  | .arr a, h => by
    show ((dtypeOfName (dtypeName a.dtype)).bind fun dt =>
        (arrToBytes (bytesToArr a.shape)).bind fun shape =>
          (arrToBytes (bytesToArr (arrBytes a))).bind fun bytes =>
            if ("little" : String) = "little" then
              (decodeArr ⟨dt, shape, true⟩ bytes).map FarVal.arr
            else none) = some (FarVal.arr a)
    rw [dtypeOfName_dtypeName, arrToBytes_bytesToArr, arrToBytes_bytesToArr]
    simp only [Option.some_bind]
    rw [if_pos trivial,
      show ({ dtype := a.dtype, shape := a.shape, littleEndian := true } : ArrHeader) =
        arrHeader a from rfl,
      decodeArr_arrBytes a h]
    rfl
  | .gen g, _ => by
    rw [show encodeFar (FarVal.gen g) = encodeGen g from rfl, decodeFar_on_gen,
      decodeGen_encodeGen g]
    rfl
/-- Field-codec round trip. -/
def decodeFields_encodeFields : (fs : Fields) → fieldsWFb fs = true →
    decodeFields (encodeFields fs) = some fs
  | .fnil, _ => rfl
  | .fcons n v fs, h => by
    have h' : valWFb v = true ∧ fieldsWFb fs = true := by
      rw [show fieldsWFb (Fields.fcons n v fs) = (valWFb v && fieldsWFb fs) from rfl,
        Bool.and_eq_true] at h
      exact h
    show ((decodeFar (encodeFar v)).bind fun fv =>
        (decodeFields (encodeFields fs)).map (Fields.fcons n fv)) =
      some (Fields.fcons n v fs)
    rw [decodeFar_encodeFar v h'.1, decodeFields_encodeFields fs h'.2]
    rfl
end

/-! ## The archive container

A `.far` file is a zip-compatible archive: a sequence of named entries plus
a per-file entry-compression mode (spec section 6).  The zip container is an
external library (`zipfile`); per its contract the compression mode changes
only the on-disk representation, so entry payloads are carried in decoded
form and the mode is recorded alongside. -/

/-- The two zip entry-compression modes, `zipfile.ZIP_STORED` and
`zipfile.ZIP_DEFLATED`. -/
inductive Compression : Type where
  | stored
  | deflated
deriving DecidableEq

/-- Decoded payload of one archive entry: a structured-text document or an
array header plus raw bytes. -/
inductive Payload : Type where
  | txt (j : Json)
  | arrp (hdr : ArrHeader) (bytes : List Nat)

/-- One archive entry: slash-separated hierarchical name plus payload. -/
structure Entry : Type where
  path : String
  payload : Payload

/-- A written `.far` archive: destination path, entry-compression mode and
the ordered entries. -/
structure FarFile : Type where
  path : String
  compression : Compression
  entries : List Entry

/-! ## Python-level objects offered to `write`

The constructors record the classifier verdicts of the source dispatch
(io.py lines 274–285): `pyfar` objects satisfy `codec._is_pyfar_type`,
`nd` satisfies `codec._is_numpy_type`, and the remaining objects carry
their concrete type name (`type(obj)`), the names of their base classes
(unused by the source dispatch, which tests type identity), and — when the
object is builtin-valued — its generic content. -/
inductive PyObj : Type where
  | pyfar (tag : String) (fields : Fields)
  | nd (a : NDArray)
  | builtin (tyName : String) (bases : List String) (g : GenVal)
  | foreign (tyName : String) (isFilter : Bool)

/-- Modelled from the spec: `codec._supported_builtin_types()` is not under
src; the supported builtin kinds are listed in the `write` docstring
(io.py lines 264–265). -/
def supported_builtin_types : List String :=
  ["bool", "bytes", "complex", "float", "frozenset", "int", "list", "set", "str", "tuple"]

/-- The error text raised for an unsupported object (io.py lines 281–285);
`{type(obj)}` renders the concrete type of the offending object. -/
def typeErrorMsg (tyName : String) (isFilter : Bool) : String :=
  let error := "Objects of type <class " ++ tyName ++ "> cannot be written to disk."
  if isFilter then error ++ ". Consider casting to <class Filter>" else error

/-- Concrete type of a Python-level object, as rendered by `{type(obj)}`. -/
def pyTypeName : PyObj → String
  | .pyfar tag _ => tag
  | .nd _ => "numpy.ndarray"
  | .builtin tyName _ _ => tyName
  | .foreign tyName _ => tyName

/-- Does the dispatch of `write` accept this object (one of the three
supported branches of io.py lines 274–279)? -/
def objSupportedb : PyObj → Bool
  | .pyfar _ _ => true
  | .nd _ => true
  | .builtin tyName _ _ => supported_builtin_types.contains tyName
  | .foreign _ _ => false

/-- The single archive entry of one pyfar-classified object: the json-aided
encoding under the path `name/$tag` (the layout `read` expects at io.py
lines 212–218). -/
def pyfarEntry (name tag : String) (fs : Fields) : Entry :=
  ⟨name ++ "/$" ++ tag, .txt (encodeFar (.comp tag fs))⟩

/-- The single archive entry of one array object under `name/$ndarray`
(io.py line 277 with `type(obj).__name__ = "ndarray"`). -/
def ndEntry (name : String) (a : NDArray) : Entry :=
  ⟨name ++ "/$ndarray", .arrp (arrHeader a) (arrBytes a)⟩

/-- The generic-aggregate object: a `BuiltinsWrapper` composite holding every
top-level builtin value under its own field (io.py lines 271, 287–289). -/
def wrapperVal (w : List (String × GenVal)) : FarVal :=
  .comp "BuiltinsWrapper" (fieldsOfList (w.map fun p => (p.1, FarVal.gen p.2)))

/-- The archive entry of the generic aggregate, written under the reserved
name `builtin_wrapper`. -/
def wrapperEntry (w : List (String × GenVal)) : Entry :=
  ⟨"builtin_wrapper/$BuiltinsWrapper", .txt (encodeFar (wrapperVal w))⟩

/-- The encoding loop of `write` (io.py lines 273–285): dispatch every named
object to the pyfar, numpy or builtin branch, or raise `TypeError`. -/
def writeLoop : List (String × PyObj) → List Entry → List (String × GenVal) →
    Except String (List Entry × List (String × GenVal))
  | [], es, w => .ok (es, w)
  | (name, obj) :: rest, es, w =>
    match obj with
    | .pyfar tag fs => writeLoop rest (es ++ [pyfarEntry name tag fs]) w
    | .nd a => writeLoop rest (es ++ [ndEntry name a]) w
    | .builtin tyName _ g =>
      if supported_builtin_types.contains tyName then
        writeLoop rest es (dinsert w name g)
      else .error (typeErrorMsg tyName false)
    | .foreign tyName isFilter => .error (typeErrorMsg tyName isFilter)

/-- The function `write(filename, compress=False, **objs)` (io.py lines 234–292).
The in-memory zip buffer is built first; the destination file is opened and
written only after the loop has finished, so an error result means no file
was created or overwritten.  Note that the source maps `compress=True` to
`ZIP_STORED` and `compress=False` to `ZIP_DEFLATED` (io.py line 269). -/
def write (filename : String) (compress : Bool) (objs : List (String × PyObj)) :
    Except String FarFile := do
  let fname := with_suffix_far filename
  let compression := if compress then Compression.stored else Compression.deflated
  let (es, w) ← writeLoop objs [] []
  let entries := if w.length > 0 then es ++ [wrapperEntry w] else es
  .ok ⟨fname, compression, entries⟩

/-! ## Reading -/

/-- Payload of the first entry with the given full path, if any
(zip members are addressed by exact name). -/
def findEntry (entries : List Entry) (p : String) : Option Payload :=
  (entries.find? fun e => e.path == p).map Entry.payload

/-- Modelled from the spec: `codec._decode_object_json_aided(name, hint,
zip_file)` is not under src; it reads the single json-aided entry
`name/hint` of the object and decodes it bottom-up (sections 4.3–4.6). -/
def decode_json_aided (name hint : String) (entries : List Entry) : Option FarVal :=
  match findEntry entries (name ++ "/" ++ hint) with
  | some (.txt j) => decodeFar j
  | _ => none

/-- Modelled from the spec: `codec._decode_ndarray(path, zip_file)` is not
under src; it reads the array entry at the given path and decodes header
plus bytes (section 4.2). -/
def decode_ndarray (path : String) (entries : List Entry) : Option FarVal :=
  match findEntry entries path with
  | some (.arrp hdr bytes) => (decodeArr hdr bytes).map FarVal.arr
  | _ => none

/-- Python `path.split('/')[:2]` unpacked as `name, hint` (io.py lines 212–214).
A path containing the `/$` marker always splits into at least two segments,
so the fallback branches are unreachable on filtered paths. -/
def hintOf (path : String) : String × String :=
  match splitSlash path with
  | n :: h :: _ => (n, h)
  | [n] => (n, n)
  | [] => ("", "")

/-- The list `obj_names_hints` (io.py lines 212–213): the `(name, hint)` pairs of all
entry paths containing the `/$` type-tag marker, in archive order. -/
def readHints (entries : List Entry) : List (String × String) :=
  (entries.filter fun e => hasSlashDollarS e.path).map fun e => hintOf e.path

/-- The exact message of the unknown-type-tag failure (io.py lines 220–223;
the three adjacent string literals concatenate without separators). -/
def unknownTypeMsg : String :=
  ".far-file contains unknown types." ++
  "This might occur when writing and reading files with" ++
  "different versions of Pyfar."

/-- One iteration of the decoding loop of `read` (io.py lines 214–223):
dispatch on the type-tag hint.  `reg` is the registry of pyfar type names
consulted by `codec._is_pyfar_type` (modelled from the spec, section 9:
registries are explicit configuration).  A failing codec decode raises; the
model surfaces it as a malformed-entry error. -/
def decodeStep (reg : List String) (entries : List Entry) (nh : String × String) :
    Except String FarVal :=
  if reg.contains (strTail nh.2) then
    match decode_json_aided nh.1 nh.2 entries with
    | some obj => .ok obj
    | none => .error ("malformed entry for " ++ nh.1)
  else if nh.2 = "$ndarray" then
    match decode_ndarray (nh.1 ++ "/" ++ nh.2) entries with
    | some obj => .ok obj
    | none => .error ("malformed entry for " ++ nh.1)
  else .error unknownTypeMsg

/-- The decoding loop of `read`, accumulating `collection[name] = obj`. -/
def readLoop (reg : List String) (entries : List Entry) :
    List (String × String) → List (String × FarVal) →
    Except String (List (String × FarVal))
  | [], coll => .ok coll
  | nh :: rest, coll =>
    match decodeStep reg entries nh with
    | .ok obj => readLoop reg entries rest (dinsert coll nh.1 obj)
    | .error e => .error e

/-- The collection as assembled by the loop of `read`, before the aggregate
merge. -/
def readCollect (reg : List String) (zf : FarFile) :
    Except String (List (String × FarVal)) :=
  readLoop reg zf.entries (readHints zf.entries) []

/-- The aggregate merge of `read` (io.py lines 226–229): if the reserved key
is present, every item of the wrapper is assigned into the collection and
the reserved key is popped.  Calling `.items()` on a non-mapping raises. -/
def mergeWrapper (coll : List (String × FarVal)) :
    Except String (List (String × FarVal)) :=
  match dlookup coll "builtin_wrapper" with
  | none => .ok coll
  | some (.comp _ fs) => .ok (dpop (dinsertAll coll (fieldsToList fs)) "builtin_wrapper")
  | some _ => .error "AttributeError: object has no attribute items"

/-- The function `read(filename)` (io.py lines 180–231), acting on the opened archive. -/
def read (reg : List String) (zf : FarFile) :
    Except String (List (String × FarVal)) := do
  let coll ← readCollect reg zf
  mergeWrapper coll

/-! ## Derived descriptions of `write` and `read` -/

/-- Decoded form of a supported object: what `read` reconstructs for it
(`foreign` objects are rejected by `write` and never decoded; the value for
them is arbitrary). -/
def toFar : PyObj → FarVal
  | .pyfar tag fs => .comp tag fs
  | .nd a => .arr a
  | .builtin _ _ g => .gen g
  | .foreign _ _ => .gen (.bool false)

/-- The archive entry a supported non-builtin object contributes. -/
def topEntry (name : String) : PyObj → Option Entry
  | .pyfar tag fs => some (pyfarEntry name tag fs)
  | .nd a => some (ndEntry name a)
  | _ => none

/-- The type-tag hint segment of a supported non-builtin object. -/
def topHint : PyObj → Option String
  | .pyfar tag _ => some ("$" ++ tag)
  | .nd _ => some "$ndarray"
  | _ => none

/-- Entries contributed by the loop of `write`, in order. -/
def topEntries (objs : List (String × PyObj)) : List Entry :=
  objs.filterMap fun p => topEntry p.1 p.2

/-- The builtin objects collected into the generic aggregate, in order. -/
def builtinPairs (objs : List (String × PyObj)) : List (String × GenVal) :=
  objs.filterMap fun p =>
    match p.2 with
    | .builtin _ _ g => some (p.1, g)
    | _ => none

/-- The error message `write` raises for an object, per dispatch branch. -/
def dispatchErrMsg : PyObj → String
  | .builtin tyName _ _ => typeErrorMsg tyName false
  | .foreign tyName isFilter => typeErrorMsg tyName isFilter
  | o => typeErrorMsg (pyTypeName o) false

/-- Per-object well-formedness for the round trip: a pyfar object carries a
registered slash-free tag and well-formed fields; an array is well-formed; a
builtin object is of a supported builtin type. -/
def objOKb (reg : List String) : PyObj → Bool
  | .pyfar tag fs => reg.contains tag && decide (noSlashStr tag) && fieldsWFb fs
  | .nd a => a.wfb
  | .builtin tyName _ _ => supported_builtin_types.contains tyName
  | .foreign _ _ => false

/-- Decoded pairs the loop of `read` produces for the non-builtin objects. -/
def topDecoded (objs : List (String × PyObj)) : List (String × FarVal) :=
  objs.filterMap fun p => (topHint p.2).map fun _ => (p.1, toFar p.2)

/-- The merged builtin values as they appear in the final collection. -/
def genDecoded (w : List (String × GenVal)) : List (String × FarVal) :=
  w.map fun q => (q.1, FarVal.gen q.2)

/-- The hint pairs of the non-builtin entries, in order. -/
def hintPairs (objs : List (String × PyObj)) : List (String × String) :=
  objs.filterMap fun p => (topHint p.2).map fun h => (p.1, h)

/-! ## Basic facts about `write` -/

theorem string_eq_of_data {a b : String} (h : a.data = b.data) : a = b := by
  cases a
  cases b
  exact congrArg String.mk h

theorem string_append_assoc (a b c : String) : a ++ b ++ c = a ++ (b ++ c) := by
  apply string_eq_of_data
  simp only [string_data_append, List.append_assoc]

/-- Rewriting `write` in terms of its loop. -/
theorem write_eq (p : String) (c : Bool) (objs : List (String × PyObj)) :
    write p c objs = match writeLoop objs [] [] with
      | .ok (es, w) => .ok ⟨with_suffix_far p,
          if c then Compression.stored else Compression.deflated,
          if w.length > 0 then es ++ [wrapperEntry w] else es⟩
      | .error e => .error e := by
  unfold write
  cases writeLoop objs [] [] with
  | ok r => obtain ⟨es, w⟩ := r; rfl
  | error e => rfl

theorem objSupportedb_of_objOKb {reg : List String} {o : PyObj}
    (h : objOKb reg o = true) : objSupportedb o = true := by
  cases o with
  | pyfar tag fs => rfl
  | nd a => rfl
  | builtin tyName bases g =>
    exact h
  | foreign tyName isFilter => exact absurd h (by simp [objOKb])

/-- Success shape of the loop of `write`: under supported objects with
pairwise-distinct names the accumulators extend by exactly the per-object
entries and builtin pairs, in input order. -/
theorem writeLoop_ok (objs : List (String × PyObj)) :
    ∀ (es : List Entry) (w : List (String × GenVal)),
    (∀ p ∈ objs, objSupportedb p.2 = true) →
    (objs.map Prod.fst).Nodup →
    (∀ n ∈ objs.map Prod.fst, dlookup w n = none) →
    writeLoop objs es w = .ok (es ++ topEntries objs, w ++ builtinPairs objs) := by
  induction objs with
  | nil => intro es w _ _ _; simp [writeLoop, topEntries, builtinPairs]
  | cons p rest ih =>
    intro es w hsup hnd hfresh
    obtain ⟨n, o⟩ := p
    have hnd' : (rest.map Prod.fst).Nodup := (List.nodup_cons.mp hnd).2
    have hnmem : n ∉ rest.map Prod.fst := (List.nodup_cons.mp hnd).1
    cases o with
    | pyfar tag fs =>
      rw [writeLoop, ih (es ++ [pyfarEntry n tag fs]) w
        (fun q hq => hsup q (List.mem_cons_of_mem _ hq)) hnd'
        (fun m hm => hfresh m (List.mem_cons_of_mem _ hm))]
      simp [topEntries, builtinPairs, topEntry, List.append_assoc]
    | nd a =>
      rw [writeLoop, ih (es ++ [ndEntry n a]) w
        (fun q hq => hsup q (List.mem_cons_of_mem _ hq)) hnd'
        (fun m hm => hfresh m (List.mem_cons_of_mem _ hm))]
      simp [topEntries, builtinPairs, topEntry, List.append_assoc]
    | builtin tyName bases g =>
      have hc : supported_builtin_types.contains tyName = true :=
        hsup (n, .builtin tyName bases g) (List.mem_cons_self _ _)
      rw [writeLoop, if_pos hc,
        dinsert_fresh g (hfresh n (List.mem_cons_self _ _)),
        ih es (w ++ [(n, g)])
          (fun q hq => hsup q (List.mem_cons_of_mem _ hq)) hnd' ?_]
      · simp [topEntries, builtinPairs, topEntry, List.append_assoc]
      · intro m hm
        rw [dlookup_append_right [(n, g)] (hfresh m (List.mem_cons_of_mem _ hm)),
          dlookup, if_neg (fun he => hnmem (by rw [he]; exact hm))]
        rfl
    | foreign tyName isFilter =>
      exact absurd (hsup (n, .foreign tyName isFilter) (List.mem_cons_self _ _))
        (by simp [objSupportedb])

/-- Error propagation of the loop of `write`: some unsupported object is
reported with the message naming its concrete type. -/
theorem writeLoop_error (objs : List (String × PyObj)) :
    ∀ (es : List Entry) (w : List (String × GenVal))
    (n : String) (o : PyObj), (n, o) ∈ objs → objSupportedb o = false →
    ∃ n2 o2, (n2, o2) ∈ objs ∧ objSupportedb o2 = false ∧
      writeLoop objs es w = .error (dispatchErrMsg o2) := by
  induction objs with
  | nil => intro es w n o hmem _; simp at hmem
  | cons p rest ih =>
    intro es w n o hmem hbad
    obtain ⟨n0, o0⟩ := p
    cases ho0 : objSupportedb o0 with
    | true =>
      have hmem' : (n, o) ∈ rest := by
        rcases List.mem_cons.mp hmem with heq | h
        · injection heq with h1 h2
          rw [h2] at hbad
          rw [hbad] at ho0
          exact absurd ho0 (by simp)
        · exact h
      have hloop : ∀ es' w', ∃ n2 o2, (n2, o2) ∈ rest ∧ objSupportedb o2 = false ∧
          writeLoop rest es' w' = .error (dispatchErrMsg o2) :=
        fun es' w' => ih es' w' n o hmem' hbad
      cases o0 with
      | pyfar tag fs =>
        obtain ⟨n2, o2, hm2, hb2, he2⟩ := hloop (es ++ [pyfarEntry n0 tag fs]) w
        exact ⟨n2, o2, List.mem_cons_of_mem _ hm2, hb2, by rw [writeLoop, he2]⟩
      | nd a =>
        obtain ⟨n2, o2, hm2, hb2, he2⟩ := hloop (es ++ [ndEntry n0 a]) w
        exact ⟨n2, o2, List.mem_cons_of_mem _ hm2, hb2, by rw [writeLoop, he2]⟩
      | builtin tyName bases g =>
        obtain ⟨n2, o2, hm2, hb2, he2⟩ := hloop es (dinsert w n0 g)
        refine ⟨n2, o2, List.mem_cons_of_mem _ hm2, hb2, ?_⟩
        rw [writeLoop,
          if_pos (show supported_builtin_types.contains tyName = true from ho0), he2]
      | foreign tyName isFilter => simp [objSupportedb] at ho0
    | false =>
      cases o0 with
      | pyfar tag fs => simp [objSupportedb] at ho0
      | nd a => simp [objSupportedb] at ho0
      | builtin tyName bases g =>
        refine ⟨n0, .builtin tyName bases g, List.mem_cons_self _ _, ho0, ?_⟩
        have ho0' : supported_builtin_types.contains tyName = false := ho0
        rw [writeLoop, if_neg (by rw [ho0']; exact Bool.false_ne_true)]
        rfl
      | foreign tyName isFilter =>
        exact ⟨n0, .foreign tyName isFilter, List.mem_cons_self _ _, ho0, rfl⟩

/-! ## Path shape lemmas -/

theorem pyfar_path_data (n tag : String) :
    (n ++ "/$" ++ tag).data = n.data ++ '/' :: '$' :: tag.data := by
  rw [string_data_append, string_data_append, List.append_assoc]
  rfl

theorem nd_path_data (n : String) :
    (n ++ "/$ndarray").data = n.data ++ '/' :: '$' :: "ndarray".data := by
  rw [string_data_append]

theorem pyfar_path_eq (n tag : String) : n ++ "/$" ++ tag = n ++ "/" ++ ("$" ++ tag) := by
  apply string_eq_of_data
  rw [pyfar_path_data, string_data_append, string_data_append, string_data_append,
    List.append_assoc]
  rfl

theorem nd_path_eq (n : String) : n ++ "/$ndarray" = n ++ "/" ++ "$ndarray" := by
  apply string_eq_of_data
  rw [nd_path_data, string_data_append, string_data_append, List.append_assoc]
  rfl

theorem strTail_dollar (s : String) : strTail ("$" ++ s) = s := by
  apply string_eq_of_data
  rfl

/-- The tag of a pyfar object must itself be slash-free for its entry path
to parse back into the same `(name, hint)` pair. -/
def tagOKb : PyObj → Bool
  | .pyfar tag _ => decide (noSlashStr tag)
  | _ => true

theorem hasSlashDollarS_pyfar (n tag : String) (hn : noSlashStr n) :
    hasSlashDollarS (n ++ "/$" ++ tag) = true := by
  unfold hasSlashDollarS
  rw [show (n ++ "/$" ++ tag).toList = n.data ++ '/' :: '$' :: tag.data from
    pyfar_path_data n tag]
  exact hasSlashDollar_append hn

theorem hasSlashDollarS_nd (n : String) (hn : noSlashStr n) :
    hasSlashDollarS (n ++ "/$ndarray") = true := by
  unfold hasSlashDollarS
  rw [show (n ++ "/$ndarray").toList = n.data ++ '/' :: '$' :: "ndarray".data from
    nd_path_data n]
  exact hasSlashDollar_append hn

theorem not_slash_mem_dollar {tag : String} (htag : noSlashStr tag) :
    '/' ∉ '$' :: tag.data := by
  intro hmem
  rcases List.mem_cons.mp hmem with h | h
  · exact absurd h (by decide)
  · exact htag h

theorem hintOf_pyfar (n tag : String) (hn : noSlashStr n) (htag : noSlashStr tag) :
    hintOf (n ++ "/$" ++ tag) = (n, "$" ++ tag) := by
  have hn' : '/' ∉ n.data := hn
  have h1 : splitSlash (n ++ "/$" ++ tag) = [n, "$" ++ tag] := by
    unfold splitSlash
    rw [show (n ++ "/$" ++ tag).toList = n.data ++ '/' :: '$' :: tag.data from
      pyfar_path_data n tag,
      splitSlashL_append hn', splitSlashL_noSlash (not_slash_mem_dollar htag)]
    rfl
  unfold hintOf
  rw [h1]

theorem hintOf_nd (n : String) (hn : noSlashStr n) :
    hintOf (n ++ "/$ndarray") = (n, "$ndarray") := by
  have hn' : '/' ∉ n.data := hn
  have h1 : splitSlash (n ++ "/$ndarray") = [n, "$ndarray"] := by
    unfold splitSlash
    rw [show (n ++ "/$ndarray").toList = n.data ++ '/' :: '$' :: "ndarray".data from
      nd_path_data n,
      splitSlashL_append hn',
      splitSlashL_noSlash (not_slash_mem_dollar (by decide))]
    rfl
  unfold hintOf
  rw [h1]

/-! ## Entry lookup lemmas -/

theorem findEntry_cons_hit (e : Entry) (E : List Entry) :
    findEntry (e :: E) e.path = some e.payload := by
  unfold findEntry
  rw [List.find?_cons_of_pos _ (by simp)]
  rfl

theorem findEntry_cons_skip {e : Entry} {E : List Entry} {target : String}
    (h : e.path ≠ target) : findEntry (e :: E) target = findEntry E target := by
  unfold findEntry
  rw [List.find?_cons_of_neg _ (by simp [h])]

theorem findEntry_append_some {E : List Entry} (E' : List Entry) {target : String}
    {pl : Payload} (h : findEntry E target = some pl) :
    findEntry (E ++ E') target = some pl := by
  induction E with
  | nil => simp [findEntry] at h
  | cons e E1 ih =>
    by_cases hp : e.path = target
    · unfold findEntry at h ⊢
      rw [List.find?_cons_of_pos _ (by simp [hp])] at h
      rw [List.cons_append, List.find?_cons_of_pos _ (by simp [hp])]
      exact h
    · rw [List.cons_append, findEntry_cons_skip hp]
      rw [findEntry_cons_skip hp] at h
      exact ih h

theorem topEntry_path_data {n : String} {o : PyObj} {e : Entry}
    (h : topEntry n o = some e) : ∃ hs : List Char, e.path.data = n.data ++ '/' :: hs := by
  cases o with
  | pyfar tag fs =>
    rw [topEntry] at h
    injection h with h
    exact ⟨'$' :: tag.data, by rw [← h]; exact pyfar_path_data n tag⟩
  | nd a =>
    rw [topEntry] at h
    injection h with h
    exact ⟨'$' :: "ndarray".data, by rw [← h]; exact nd_path_data n⟩
  | builtin tyName bases g => simp [topEntry] at h
  | foreign tyName isFilter => simp [topEntry] at h

theorem path_ne_of_name_ne {n1 n2 : String} {h1 h2 : List Char}
    (hn1 : noSlashStr n1) (hn2 : noSlashStr n2) (hne : n1 ≠ n2) :
    n1.data ++ '/' :: h1 ≠ n2.data ++ '/' :: h2 :=
  fun h => hne (string_eq_of_data (slash_head_inj hn1 hn2 h).1)

/-- The entry of each supported non-builtin object is found at its own path
among the written entries: earlier entries carry different slash-free
top-level names, later entries are shadowed only by identical paths, which
distinct names exclude. -/
theorem findEntry_topEntries (objs : List (String × PyObj)) :
    ∀ (wtail : List Entry) (n : String) (o : PyObj) (e : Entry),
    (n, o) ∈ objs →
    topEntry n o = some e →
    (objs.map Prod.fst).Nodup →
    (∀ p ∈ objs, noSlashStr p.1) →
    findEntry (topEntries objs ++ wtail) e.path = some e.payload := by
  induction objs with
  | nil => intro wtail n o e hmem _ _ _; simp at hmem
  | cons q rest ih =>
    intro wtail n o e hmem hte hnd hns
    obtain ⟨n0, o0⟩ := q
    have hnd' : (rest.map Prod.fst).Nodup := (List.nodup_cons.mp hnd).2
    have hn0mem : n0 ∉ rest.map Prod.fst := (List.nodup_cons.mp hnd).1
    have hns' : ∀ p ∈ rest, noSlashStr p.1 :=
      fun p hp => hns p (List.mem_cons_of_mem _ hp)
    have htop : topEntries ((n0, o0) :: rest) =
        match topEntry n0 o0 with
        | some e0 => e0 :: topEntries rest
        | none => topEntries rest := by
      unfold topEntries
      rw [List.filterMap_cons]
      cases topEntry n0 o0 <;> rfl
    cases h0 : topEntry n0 o0 with
    | none =>
      rw [htop, h0]
      rcases List.mem_cons.mp hmem with heq | hmem'
      · injection heq with he1 he2
        rw [he1, he2] at hte
        rw [hte] at h0
        exact absurd h0 (by simp)
      · exact ih wtail n o e hmem' hte hnd' hns'
    | some e0 =>
      rw [htop, h0]
      rcases List.mem_cons.mp hmem with heq | hmem'
      · injection heq with he1 he2
        rw [he1, he2] at hte
        rw [hte] at h0
        injection h0 with h0
        rw [h0, List.cons_append]
        exact findEntry_cons_hit e0 _
      · have hne : n0 ≠ n := by
          intro he
          apply hn0mem
          rw [he]
          exact List.mem_map.mpr ⟨(n, o), hmem', rfl⟩
        obtain ⟨hs0, hp0⟩ := topEntry_path_data h0
        obtain ⟨hs, hp⟩ := topEntry_path_data hte
        have hpne : e0.path ≠ e.path := by
          intro hpe
          apply path_ne_of_name_ne
            (hns (n0, o0) (List.mem_cons_self _ _)) (hns (n, o) hmem) hne
          rw [← hp0, ← hp, hpe]
        rw [List.cons_append, findEntry_cons_skip hpne]
        exact ih wtail n o e hmem' hte hnd' hns'

/-! ## Hint enumeration lemmas -/

theorem readHints_append (E1 E2 : List Entry) :
    readHints (E1 ++ E2) = readHints E1 ++ readHints E2 := by
  unfold readHints
  rw [List.filter_append, List.map_append]

theorem readHints_topEntries (objs : List (String × PyObj)) :
    (∀ p ∈ objs, noSlashStr p.1) → (∀ p ∈ objs, tagOKb p.2 = true) →
    readHints (topEntries objs) = hintPairs objs := by
  induction objs with
  | nil => intro _ _; rfl
  | cons q rest ih =>
    intro hns htag
    obtain ⟨n0, o0⟩ := q
    have hns0 : noSlashStr n0 := hns (n0, o0) (List.mem_cons_self _ _)
    have ihr := ih (fun p hp => hns p (List.mem_cons_of_mem _ hp))
      (fun p hp => htag p (List.mem_cons_of_mem _ hp))
    unfold readHints at ihr ⊢
    cases o0 with
    | pyfar tag fs =>
      have htag0 : noSlashStr tag :=
        of_decide_eq_true (htag (n0, .pyfar tag fs) (List.mem_cons_self _ _))
      show List.map _ (List.filter _ (pyfarEntry n0 tag fs :: topEntries rest)) = _
      rw [List.filter_cons_of_pos (by exact hasSlashDollarS_pyfar n0 tag hns0),
        List.map_cons, ihr,
        show (pyfarEntry n0 tag fs).path = n0 ++ "/$" ++ tag from rfl,
        hintOf_pyfar n0 tag hns0 htag0]
      rfl
    | nd a =>
      show List.map _ (List.filter _ (ndEntry n0 a :: topEntries rest)) = _
      rw [List.filter_cons_of_pos (by exact hasSlashDollarS_nd n0 hns0),
        List.map_cons, ihr,
        show (ndEntry n0 a).path = n0 ++ "/$ndarray" from rfl,
        hintOf_nd n0 hns0]
      rfl
    | builtin tyName bases g =>
      show List.map _ (List.filter _ (topEntries rest)) = _
      rw [ihr]
      rfl
    | foreign tyName isFilter =>
      show List.map _ (List.filter _ (topEntries rest)) = _
      rw [ihr]
      rfl

theorem readHints_wrapper (w : List (String × GenVal)) :
    readHints [wrapperEntry w] = [("builtin_wrapper", "$BuiltinsWrapper")] := rfl

/-! ## One-step decode lemmas -/

theorem wrapperVal_wfb (w : List (String × GenVal)) : valWFb (wrapperVal w) = true := by
  show fieldsWFb (fieldsOfList (w.map fun p => (p.1, FarVal.gen p.2))) = true
  induction w with
  | nil => rfl
  | cons q rest ih =>
    show (valWFb (FarVal.gen q.2) && fieldsWFb
      (fieldsOfList (rest.map fun p => (p.1, FarVal.gen p.2)))) = true
    rw [ih]
    rfl

theorem decodeStep_pyfar {reg : List String} {E : List Entry} {n tag : String}
    {fs : Fields}
    (hcon : reg.contains tag = true)
    (hfind : findEntry E (n ++ "/" ++ ("$" ++ tag)) =
      some (Payload.txt (encodeFar (.comp tag fs))))
    (hwf : fieldsWFb fs = true) :
    decodeStep reg E (n, "$" ++ tag) = .ok (FarVal.comp tag fs) := by
  unfold decodeStep
  rw [show ("$" ++ tag : String) = ("$" ++ tag) from rfl]
  rw [show strTail ("$" ++ tag) = tag from strTail_dollar tag, hcon, if_pos rfl]
  unfold decode_json_aided
  rw [hfind]
  show (match decodeFar (encodeFar (FarVal.comp tag fs)) with
    | some obj => Except.ok obj
    | none => Except.error ("malformed entry for " ++ n)) = Except.ok (FarVal.comp tag fs)
  rw [decodeFar_encodeFar (.comp tag fs) hwf]

theorem decodeStep_nd {reg : List String} {E : List Entry} {n : String} {a : NDArray}
    (hreg : reg.contains "ndarray" = false)
    (hfind : findEntry E (n ++ "/" ++ "$ndarray") =
      some (Payload.arrp (arrHeader a) (arrBytes a)))
    (hwf : a.wfb = true) :
    decodeStep reg E (n, "$ndarray") = .ok (FarVal.arr a) := by
  unfold decodeStep
  rw [show strTail "$ndarray" = "ndarray" from rfl, hreg,
    if_neg (by exact Bool.false_ne_true), if_pos rfl]
  unfold decode_ndarray
  rw [hfind]
  show (match Option.map FarVal.arr (decodeArr (arrHeader a) (arrBytes a)) with
    | some obj => Except.ok obj
    | none => Except.error ("malformed entry for " ++ n)) = Except.ok (FarVal.arr a)
  rw [decodeArr_arrBytes a hwf]
  rfl

theorem decodeStep_wrapper {reg : List String} {E : List Entry}
    {w : List (String × GenVal)}
    (hcon : reg.contains "BuiltinsWrapper" = true)
    (hfind : findEntry E ("builtin_wrapper" ++ "/" ++ "$BuiltinsWrapper") =
      some (Payload.txt (encodeFar (wrapperVal w)))) :
    decodeStep reg E ("builtin_wrapper", "$BuiltinsWrapper") = .ok (wrapperVal w) := by
  unfold decodeStep
  rw [show strTail "$BuiltinsWrapper" = "BuiltinsWrapper" from rfl, hcon, if_pos rfl]
  unfold decode_json_aided
  rw [hfind]
  show (match decodeFar (encodeFar (wrapperVal w)) with
    | some obj => Except.ok obj
    | none => Except.error ("malformed entry for " ++ "builtin_wrapper")) =
    Except.ok (wrapperVal w)
  rw [decodeFar_encodeFar (wrapperVal w) (wrapperVal_wfb w)]

/-! ## The decoding loop on all-good hints -/

theorem readLoop_all_ok {reg : List String} {E : List Entry} :
    ∀ (hs : List (String × String)) (outs : List (String × FarVal))
    (coll : List (String × FarVal)),
    List.Forall₂ (fun nh pv => nh.1 = pv.1 ∧ decodeStep reg E nh = .ok pv.2) hs outs →
    (dkeys outs).Nodup →
    (∀ pv ∈ outs, dlookup coll pv.1 = none) →
    readLoop reg E hs coll = .ok (coll ++ outs) := by
  intro hs outs
  induction hs generalizing outs with
  | nil =>
    intro coll hf _ _
    cases hf
    simp [readLoop]
  | cons nh hs' ih =>
    intro coll hf hnd hfresh
    cases hf with
    | cons hhead htail =>
      rename_i pv outs'
      rw [readLoop, hhead.2]
      show readLoop reg E hs' (dinsert coll nh.1 pv.2) = Except.ok (coll ++ pv :: outs')
      have hfr : dlookup coll pv.1 = none := hfresh pv (List.mem_cons_self _ _)
      have hins : dinsert coll nh.1 pv.2 = coll ++ [(pv.1, pv.2)] := by
        rw [hhead.1]
        exact dinsert_fresh pv.2 hfr
      rw [hins, ih outs' (coll ++ [(pv.1, pv.2)]) htail (List.nodup_cons.mp hnd).2 ?_,
        List.append_assoc]
      · rfl
      · intro q hq
        have hqk : q.1 ≠ pv.1 := by
          intro he
          apply (List.nodup_cons.mp hnd).1
          rw [← he]
          exact List.mem_map.mpr ⟨q, hq, rfl⟩
        rw [dlookup_append_right _ (hfresh q (List.mem_cons_of_mem _ hq)),
          dlookup, if_neg (fun he => hqk he.symm)]
        rfl

/-! ## Further dict lemmas -/

theorem dkeys_dinsert_mem {α : Type} : ∀ (m : List (String × α)) (k : String) (v : α)
    (x : String), x ∈ dkeys (dinsert m k v) → x = k ∨ x ∈ dkeys m := by
  intro m k v
  induction m with
  | nil =>
    intro x hx
    rcases List.mem_cons.mp hx with h | h
    · exact Or.inl h
    · simp at h
  | cons p rest ih =>
    intro x hx
    obtain ⟨a, b⟩ := p
    by_cases hak : a = k
    · rw [dinsert, if_pos hak] at hx
      exact Or.inr hx
    · rw [dinsert, if_neg hak] at hx
      rcases List.mem_cons.mp hx with h | h
      · exact Or.inr (h ▸ List.mem_cons_self _ _)
      · rcases ih x h with h' | h'
        · exact Or.inl h'
        · exact Or.inr (List.mem_cons_of_mem _ h')

theorem dkeys_dinsert_nodup {α : Type} : ∀ (m : List (String × α)) (k : String) (v : α),
    (dkeys m).Nodup → (dkeys (dinsert m k v)).Nodup := by
  intro m k v
  induction m with
  | nil => intro _; simp [dinsert, dkeys]
  | cons p rest ih =>
    intro hnd
    obtain ⟨a, b⟩ := p
    have hnd1 : a ∉ dkeys rest := (List.nodup_cons.mp hnd).1
    have hnd2 : (dkeys rest).Nodup := (List.nodup_cons.mp hnd).2
    by_cases hak : a = k
    · rw [dinsert, if_pos hak]
      exact hnd
    · rw [dinsert, if_neg hak]
      rw [show dkeys ((a, b) :: dinsert rest k v) = a :: dkeys (dinsert rest k v) from rfl]
      rw [List.nodup_cons]
      refine ⟨?_, ih hnd2⟩
      intro hmem
      rcases dkeys_dinsert_mem rest k v a hmem with h | h
      · exact hak h
      · exact hnd1 h

theorem dkeys_dinsertAll_nodup {α : Type} : ∀ (l m : List (String × α)),
    (dkeys m).Nodup → (dkeys (dinsertAll m l)).Nodup := by
  intro l
  induction l with
  | nil => intro m h; exact h
  | cons p rest ih =>
    intro m h
    rw [dinsertAll]
    exact ih _ (dkeys_dinsert_nodup m p.1 p.2 h)

theorem dlookup_dpop_self {α : Type} : ∀ (m : List (String × α)) (k : String),
    (dkeys m).Nodup → dlookup (dpop m k) k = none := by
  intro m k
  induction m with
  | nil => intro _; rfl
  | cons p rest ih =>
    intro hnd
    obtain ⟨a, b⟩ := p
    by_cases hak : a = k
    · rw [dpop, if_pos hak]
      apply dlookup_of_not_keys
      rw [← hak]
      exact (List.nodup_cons.mp hnd).1
    · rw [dpop, if_neg hak, dlookup, if_neg hak]
      exact ih (List.nodup_cons.mp hnd).2

theorem dlookup_dinsert_self {α : Type} : ∀ (m : List (String × α)) (k : String) (v : α),
    dlookup (dinsert m k v) k = some v := by
  intro m k v
  induction m with
  | nil => simp [dinsert, dlookup]
  | cons p rest ih =>
    obtain ⟨a, b⟩ := p
    by_cases hak : a = k
    · rw [dinsert, if_pos hak, dlookup, if_pos hak]
    · rw [dinsert, if_neg hak, dlookup, if_neg hak]
      exact ih

theorem dlookup_dinsert_ne {α : Type} {k key : String} (hne : key ≠ k) :
    ∀ (m : List (String × α)) (v : α), dlookup (dinsert m k v) key = dlookup m key := by
  intro m v
  induction m with
  | nil =>
    show dlookup [(k, v)] key = none
    rw [dlookup, if_neg (fun h => hne h.symm)]
    rfl
  | cons p rest ih =>
    obtain ⟨a, b⟩ := p
    by_cases hak : a = k
    · rw [dinsert, if_pos hak, dlookup, dlookup]
      by_cases hakey : a = key
      · exact absurd (hakey.symm.trans hak) hne
      · rw [if_neg hakey, if_neg hakey]
    · rw [dinsert, if_neg hak, dlookup, dlookup]
      by_cases hakey : a = key
      · rw [if_pos hakey, if_pos hakey]
      · rw [if_neg hakey, if_neg hakey]
        exact ih

theorem dinsertAll_lookup_not_mem {α : Type} {k : String} :
    ∀ (l m : List (String × α)), k ∉ l.map Prod.fst →
    dlookup (dinsertAll m l) k = dlookup m k := by
  intro l
  induction l with
  | nil => intro m _; rfl
  | cons p rest ih =>
    intro m hk
    rw [dinsertAll, ih _ (fun h => hk (List.mem_cons_of_mem _ h)),
      dlookup_dinsert_ne (fun he => hk (by rw [he]; exact List.mem_cons_self _ _))]

theorem dinsertAll_lookup_mem {α : Type} {k : String} {v : α} :
    ∀ (l m : List (String × α)), (l.map Prod.fst).Nodup → (k, v) ∈ l →
    dlookup (dinsertAll m l) k = some v := by
  intro l
  induction l with
  | nil => intro m _ hmem; simp at hmem
  | cons p rest ih =>
    intro m hnd hmem
    obtain ⟨a, b⟩ := p
    rcases List.mem_cons.mp hmem with heq | hmem'
    · injection heq with h1 h2
      rw [dinsertAll,
        dinsertAll_lookup_not_mem rest _ (by
          rw [h1]
          exact (List.nodup_cons.mp hnd).1),
        h1, h2]
      exact dlookup_dinsert_self m a b
    · rw [dinsertAll]
      exact ih _ (List.nodup_cons.mp hnd).2 hmem'

/-! ## Key bookkeeping for the final collection -/

theorem genDecoded_keys (w : List (String × GenVal)) :
    dkeys (genDecoded w) = w.map Prod.fst := by
  induction w with
  | nil => rfl
  | cons q rest ih =>
    show q.1 :: dkeys (genDecoded rest) = q.1 :: rest.map Prod.fst
    rw [ih]

theorem topDecoded_keys_sublist (objs : List (String × PyObj)) :
    (dkeys (topDecoded objs)).Sublist (objs.map Prod.fst) := by
  induction objs with
  | nil => exact List.Sublist.refl _
  | cons q rest ih =>
    obtain ⟨n0, o0⟩ := q
    cases o0 with
    | pyfar tag fs =>
      show (n0 :: dkeys (topDecoded rest)).Sublist (n0 :: rest.map Prod.fst)
      exact List.Sublist.cons₂ n0 ih
    | nd a =>
      show (n0 :: dkeys (topDecoded rest)).Sublist (n0 :: rest.map Prod.fst)
      exact List.Sublist.cons₂ n0 ih
    | builtin tyName bases g =>
      show (dkeys (topDecoded rest)).Sublist (n0 :: rest.map Prod.fst)
      exact List.Sublist.cons n0 ih
    | foreign tyName isFilter =>
      show (dkeys (topDecoded rest)).Sublist (n0 :: rest.map Prod.fst)
      exact List.Sublist.cons n0 ih

theorem builtinPairs_keys_sublist (objs : List (String × PyObj)) :
    ((builtinPairs objs).map Prod.fst).Sublist (objs.map Prod.fst) := by
  induction objs with
  | nil => exact List.Sublist.refl _
  | cons q rest ih =>
    obtain ⟨n0, o0⟩ := q
    cases o0 with
    | pyfar tag fs =>
      show ((builtinPairs rest).map Prod.fst).Sublist (n0 :: rest.map Prod.fst)
      exact List.Sublist.cons n0 ih
    | nd a =>
      show ((builtinPairs rest).map Prod.fst).Sublist (n0 :: rest.map Prod.fst)
      exact List.Sublist.cons n0 ih
    | builtin tyName bases g =>
      show (n0 :: (builtinPairs rest).map Prod.fst).Sublist (n0 :: rest.map Prod.fst)
      exact List.Sublist.cons₂ n0 ih
    | foreign tyName isFilter =>
      show ((builtinPairs rest).map Prod.fst).Sublist (n0 :: rest.map Prod.fst)
      exact List.Sublist.cons n0 ih

/-- A name saved as a builtin value never collides with a decoded
non-builtin object: the loop names are pairwise distinct. -/
theorem keys_disjoint (objs : List (String × PyObj)) :
    (objs.map Prod.fst).Nodup →
    ∀ n, n ∈ (builtinPairs objs).map Prod.fst → n ∉ dkeys (topDecoded objs) := by
  induction objs with
  | nil => intro _ n hn; simp [builtinPairs] at hn
  | cons q rest ih =>
    intro hnd n hn
    obtain ⟨n0, o0⟩ := q
    have hn0 : n0 ∉ rest.map Prod.fst := (List.nodup_cons.mp hnd).1
    have hnd' : (rest.map Prod.fst).Nodup := (List.nodup_cons.mp hnd).2
    cases o0 with
    | pyfar tag fs =>
      have hn' : n ∈ (builtinPairs rest).map Prod.fst := hn
      have hne : n ≠ n0 := by
        intro he
        apply hn0
        rw [← he]
        exact (builtinPairs_keys_sublist rest).subset hn'
      show n ∉ n0 :: dkeys (topDecoded rest)
      intro hmem
      rcases List.mem_cons.mp hmem with h | h
      · exact hne h
      · exact ih hnd' n hn' h
    | nd a =>
      have hn' : n ∈ (builtinPairs rest).map Prod.fst := hn
      have hne : n ≠ n0 := by
        intro he
        apply hn0
        rw [← he]
        exact (builtinPairs_keys_sublist rest).subset hn'
      show n ∉ n0 :: dkeys (topDecoded rest)
      intro hmem
      rcases List.mem_cons.mp hmem with h | h
      · exact hne h
      · exact ih hnd' n hn' h
    | builtin tyName bases g =>
      have hn' : n ∈ n0 :: (builtinPairs rest).map Prod.fst := hn
      show n ∉ dkeys (topDecoded rest)
      rcases List.mem_cons.mp hn' with h | h
      · intro hmem
        apply hn0
        rw [← h]
        exact (topDecoded_keys_sublist rest).subset hmem
      · exact ih hnd' n h
    | foreign tyName isFilter =>
      exact ih hnd' n hn

/-! ## Glue lemmas for the round trip -/

theorem objOK_pyfar_parts {reg : List String} {tag : String} {fs : Fields}
    (h : objOKb reg (.pyfar tag fs) = true) :
    reg.contains tag = true ∧ noSlashStr tag ∧ fieldsWFb fs = true := by
  have h' : ((reg.contains tag && decide (noSlashStr tag)) && fieldsWFb fs) = true := h
  rw [Bool.and_eq_true, Bool.and_eq_true] at h'
  exact ⟨h'.1.1, of_decide_eq_true h'.1.2, h'.2⟩

theorem tagOKb_of_objOKb {reg : List String} {o : PyObj}
    (h : objOKb reg o = true) : tagOKb o = true := by
  cases o with
  | pyfar tag fs => exact decide_eq_true (objOK_pyfar_parts h).2.1
  | nd a => rfl
  | builtin tyName bases g => rfl
  | foreign tyName isFilter => rfl

theorem reserved_not_mem_names {objs : List (String × PyObj)}
    (hres : ∀ q ∈ objs, q.1 ≠ "builtin_wrapper") :
    "builtin_wrapper" ∉ objs.map Prod.fst := by
  intro hmem
  obtain ⟨q, hq, he⟩ := List.mem_map.mp hmem
  exact hres q hq he

theorem mem_topDecoded {objs : List (String × PyObj)} {n : String} {o : PyObj}
    {h : String} (hmem : (n, o) ∈ objs) (hh : topHint o = some h) :
    (n, toFar o) ∈ topDecoded objs := by
  apply List.mem_filterMap.mpr
  exact ⟨(n, o), hmem, by rw [show (n, o).2 = o from rfl, hh]; rfl⟩

theorem mem_builtinPairs {objs : List (String × PyObj)} {n tyName : String}
    {bases : List String} {g : GenVal}
    (hmem : (n, .builtin tyName bases g) ∈ objs) : (n, g) ∈ builtinPairs objs := by
  apply List.mem_filterMap.mpr
  exact ⟨(n, .builtin tyName bases g), hmem, rfl⟩

theorem wrapper_path_concat :
    ("builtin_wrapper" ++ "/" ++ "$BuiltinsWrapper" : String) =
    "builtin_wrapper/$BuiltinsWrapper" := by
  apply string_eq_of_data
  rfl

theorem reserved_target_data (r : String) :
    ("builtin_wrapper" ++ "/" ++ r).data = "builtin_wrapper".data ++ '/' :: r.data := by
  rw [string_data_append, string_data_append, List.append_assoc]
  rfl

/-- Entries of objects whose names differ from the reserved name never
shadow a lookup under the reserved name. -/
theorem findEntry_reserved_skip (objs : List (String × PyObj)) :
    ∀ (wtail : List Entry) (r : String),
    (∀ q ∈ objs, noSlashStr q.1) →
    (∀ q ∈ objs, q.1 ≠ "builtin_wrapper") →
    findEntry (topEntries objs ++ wtail) ("builtin_wrapper" ++ "/" ++ r) =
    findEntry wtail ("builtin_wrapper" ++ "/" ++ r) := by
  induction objs with
  | nil => intro wtail r _ _; rfl
  | cons q rest ih =>
    intro wtail r hns hres
    obtain ⟨n0, o0⟩ := q
    have hns' : ∀ q ∈ rest, noSlashStr q.1 := fun q hq => hns q (List.mem_cons_of_mem _ hq)
    have hres' : ∀ q ∈ rest, q.1 ≠ "builtin_wrapper" :=
      fun q hq => hres q (List.mem_cons_of_mem _ hq)
    have htop : topEntries ((n0, o0) :: rest) =
        match topEntry n0 o0 with
        | some e0 => e0 :: topEntries rest
        | none => topEntries rest := by
      unfold topEntries
      rw [List.filterMap_cons]
      cases topEntry n0 o0 <;> rfl
    cases h0 : topEntry n0 o0 with
    | none =>
      rw [htop, h0]
      exact ih wtail r hns' hres'
    | some e0 =>
      rw [htop, h0, List.cons_append]
      obtain ⟨hs0, hp0⟩ := topEntry_path_data h0
      have hpne : e0.path ≠ "builtin_wrapper" ++ "/" ++ r := by
        intro hpe
        apply path_ne_of_name_ne (hns (n0, o0) (List.mem_cons_self _ _))
          (show noSlashStr "builtin_wrapper" by decide)
          (hres (n0, o0) (List.mem_cons_self _ _))
        rw [← hp0, ← reserved_target_data r, hpe]
      rw [findEntry_cons_skip hpne]
      exact ih wtail r hns' hres'

theorem hintPairs_forall2 {reg : List String} {E : List Entry} :
    ∀ (objs : List (String × PyObj)),
    (∀ q ∈ objs, ∀ hh, topHint q.2 = some hh →
      decodeStep reg E (q.1, hh) = .ok (toFar q.2)) →
    List.Forall₂ (fun nh pv => nh.1 = pv.1 ∧ decodeStep reg E nh = .ok pv.2)
      (hintPairs objs) (topDecoded objs) := by
  intro objs
  induction objs with
  | nil => intro _; exact List.Forall₂.nil
  | cons q rest ih =>
    intro hdec
    obtain ⟨n0, o0⟩ := q
    have ihr := ih (fun q hq => hdec q (List.mem_cons_of_mem _ hq))
    cases o0 with
    | pyfar tag fs =>
      show List.Forall₂ _ ((n0, "$" ++ tag) :: hintPairs rest)
        ((n0, toFar (.pyfar tag fs)) :: topDecoded rest)
      exact List.Forall₂.cons
        ⟨rfl, hdec (n0, .pyfar tag fs) (List.mem_cons_self _ _) ("$" ++ tag) rfl⟩ ihr
    | nd a =>
      show List.Forall₂ _ ((n0, "$ndarray") :: hintPairs rest)
        ((n0, toFar (.nd a)) :: topDecoded rest)
      exact List.Forall₂.cons
        ⟨rfl, hdec (n0, .nd a) (List.mem_cons_self _ _) "$ndarray" rfl⟩ ihr
    | builtin tyName bases g => exact ihr
    | foreign tyName isFilter => exact ihr

/-- Per-object decode fact over the written entries. -/
theorem decodeStep_top (reg : List String) (objs : List (String × PyObj))
    (wtail : List Entry)
    (hnd : (objs.map Prod.fst).Nodup)
    (hns : ∀ q ∈ objs, noSlashStr q.1)
    (hok : ∀ q ∈ objs, objOKb reg q.2 = true)
    (hreg2 : reg.contains "ndarray" = false) :
    ∀ q ∈ objs, ∀ hh, topHint q.2 = some hh →
      decodeStep reg (topEntries objs ++ wtail) (q.1, hh) = .ok (toFar q.2) := by
  intro q hq hh hhint
  obtain ⟨n, o⟩ := q
  cases o with
  | pyfar tag fs =>
    injection hhint with hhint
    obtain ⟨hcon, htns, hwf⟩ := objOK_pyfar_parts (hok (n, .pyfar tag fs) hq)
    have hfind := findEntry_topEntries objs wtail n (.pyfar tag fs)
      (pyfarEntry n tag fs) hq rfl hnd hns
    rw [show (pyfarEntry n tag fs).path = n ++ "/$" ++ tag from rfl,
      pyfar_path_eq] at hfind
    rw [← hhint]
    exact decodeStep_pyfar hcon hfind hwf
  | nd a =>
    injection hhint with hhint
    have hwf : a.wfb = true := hok (n, .nd a) hq
    have hfind := findEntry_topEntries objs wtail n (.nd a) (ndEntry n a) hq rfl hnd hns
    rw [show (ndEntry n a).path = n ++ "/$ndarray" from rfl, nd_path_eq] at hfind
    rw [← hhint]
    exact decodeStep_nd hreg2 hfind hwf
  | builtin tyName bases g => simp [topHint] at hhint
  | foreign tyName isFilter => simp [topHint] at hhint

/-- Rewriting `read` in terms of the collection loop and the aggregate merge. -/
theorem read_eq (reg : List String) (zf : FarFile) :
    read reg zf = match readCollect reg zf with
      | .ok coll => mergeWrapper coll
      | .error e => .error e := by
  unfold read
  cases readCollect reg zf <;> rfl

theorem dkeys_append {α : Type} (m1 m2 : List (String × α)) :
    dkeys (m1 ++ m2) = dkeys m1 ++ dkeys m2 := List.map_append _ _ _

theorem forall2_append {α β : Type} {R : α → β → Prop} :
    ∀ {l₁ : List α} {l₂ : List β} {u₁ : List α} {u₂ : List β},
    List.Forall₂ R l₁ l₂ → List.Forall₂ R u₁ u₂ →
    List.Forall₂ R (l₁ ++ u₁) (l₂ ++ u₂) := by
  intro l₁ l₂ u₁ u₂ h1 h2
  induction h1 with
  | nil => exact h2
  | cons hh ht ih => exact List.Forall₂.cons hh ih

/-- C1 amended: write-then-read round trip.  For every mix of supported
values — pyfar composite objects with nested array, composite and generic
fields, arrays of every supported element type including zero-length and
singleton shapes, and every supported builtin kind including nested
containers — written under pairwise-distinct names other than the reserved
aggregate key `builtin_wrapper`, `read` of the written archive succeeds and
its entry for each name is value-equal to the written value.  (The original
claim quantified over all names; the name `builtin_wrapper` is the sole
exception, as the counterexample shows.) -/
theorem write_read_roundtrip (reg : List String) (p : String) (compress : Bool)
    (objs : List (String × PyObj))
    (hreg1 : reg.contains "BuiltinsWrapper" = true)
    (hreg2 : reg.contains "ndarray" = false)
    (hnd : (objs.map Prod.fst).Nodup)
    (hns : ∀ q ∈ objs, noSlashStr q.1)
    (hres : ∀ q ∈ objs, q.1 ≠ "builtin_wrapper")
    (hok : ∀ q ∈ objs, objOKb reg q.2 = true) :
    ∃ f res, write p compress objs = .ok f ∧ f.path = with_suffix_far p ∧
      read reg f = .ok res ∧
      ∀ n o, (n, o) ∈ objs → dlookup res n = some (toFar o) := by
  have hsup : ∀ q ∈ objs, objSupportedb q.2 = true :=
    fun q hq => objSupportedb_of_objOKb (hok q hq)
  have hwl : writeLoop objs [] [] = .ok (topEntries objs, builtinPairs objs) := by
    have h := writeLoop_ok objs [] [] hsup hnd (fun m _ => rfl)
    simpa using h
  have htopnd : (dkeys (topDecoded objs)).Nodup :=
    List.Nodup.sublist (topDecoded_keys_sublist objs) hnd
  have hgennd : (dkeys (genDecoded (builtinPairs objs))).Nodup := by
    rw [genDecoded_keys]
    exact List.Nodup.sublist (builtinPairs_keys_sublist objs) hnd
  have hresk : "builtin_wrapper" ∉ objs.map Prod.fst := reserved_not_mem_names hres
  have hrestop : "builtin_wrapper" ∉ dkeys (topDecoded objs) :=
    fun h => hresk ((topDecoded_keys_sublist objs).subset h)
  have htagok : ∀ q ∈ objs, tagOKb q.2 = true :=
    fun q hq => tagOKb_of_objOKb (hok q hq)
  by_cases hb : (builtinPairs objs).length > 0
  · -- at least one builtin value: the aggregate entry is written
    refine ⟨FarFile.mk (with_suffix_far p)
        (if compress then Compression.stored else Compression.deflated)
        (topEntries objs ++ [wrapperEntry (builtinPairs objs)]),
      topDecoded objs ++ genDecoded (builtinPairs objs), ?_, rfl, ?_, ?_⟩
    · rw [write_eq, hwl]
      show Except.ok (FarFile.mk (with_suffix_far p)
          (if compress then Compression.stored else Compression.deflated)
          (if (builtinPairs objs).length > 0 then
            topEntries objs ++ [wrapperEntry (builtinPairs objs)]
          else topEntries objs)) = _
      rw [if_pos hb]
    · -- read computes the merged collection
      have hdec := decodeStep_top reg objs [wrapperEntry (builtinPairs objs)]
        hnd hns hok hreg2
      have hfa1 := hintPairs_forall2 objs hdec
      have hwrapfind : findEntry (topEntries objs ++ [wrapperEntry (builtinPairs objs)])
          ("builtin_wrapper" ++ "/" ++ "$BuiltinsWrapper") =
          some (Payload.txt (encodeFar (wrapperVal (builtinPairs objs)))) := by
        rw [findEntry_reserved_skip objs [wrapperEntry (builtinPairs objs)]
          "$BuiltinsWrapper" hns hres, wrapper_path_concat]
        exact findEntry_cons_hit (wrapperEntry (builtinPairs objs)) []
      have hstepw := decodeStep_wrapper hreg1 hwrapfind
      have hfa : List.Forall₂
          (fun nh pv => nh.1 = pv.1 ∧
            decodeStep reg (topEntries objs ++ [wrapperEntry (builtinPairs objs)]) nh =
              .ok pv.2)
          (hintPairs objs ++ [("builtin_wrapper", "$BuiltinsWrapper")])
          (topDecoded objs ++ [("builtin_wrapper", wrapperVal (builtinPairs objs))]) :=
        forall2_append hfa1 (List.Forall₂.cons ⟨rfl, hstepw⟩ List.Forall₂.nil)
      have houtnd : (dkeys (topDecoded objs ++
          [("builtin_wrapper", wrapperVal (builtinPairs objs))])).Nodup := by
        rw [dkeys_append]
        rw [List.nodup_append]
        refine ⟨htopnd, List.nodup_singleton _, ?_⟩
        intro a ha hb2
        rcases List.mem_cons.mp hb2 with h | h
        · rw [h] at ha; exact hrestop ha
        · simp at h
      have hloop := readLoop_all_ok
        (hintPairs objs ++ [("builtin_wrapper", "$BuiltinsWrapper")])
        (topDecoded objs ++ [("builtin_wrapper", wrapperVal (builtinPairs objs))])
        [] hfa houtnd (fun _ _ => rfl)
      have hhints : readHints (topEntries objs ++ [wrapperEntry (builtinPairs objs)]) =
          hintPairs objs ++ [("builtin_wrapper", "$BuiltinsWrapper")] := by
        rw [readHints_append, readHints_topEntries objs hns htagok, readHints_wrapper]
      have hcoll : readCollect reg ⟨with_suffix_far p,
          if compress then Compression.stored else Compression.deflated,
          topEntries objs ++ [wrapperEntry (builtinPairs objs)]⟩ =
          .ok (topDecoded objs ++
            [("builtin_wrapper", wrapperVal (builtinPairs objs))]) := by
        unfold readCollect
        show readLoop reg (topEntries objs ++ [wrapperEntry (builtinPairs objs)])
          (readHints (topEntries objs ++ [wrapperEntry (builtinPairs objs)])) [] = _
        rw [hhints, hloop]
        rfl
      rw [read_eq, hcoll]
      show mergeWrapper _ = _
      have hlook : dlookup (topDecoded objs ++
          [("builtin_wrapper", wrapperVal (builtinPairs objs))]) "builtin_wrapper" =
          some (wrapperVal (builtinPairs objs)) := by
        rw [dlookup_append_right _ (dlookup_of_not_keys hrestop), dlookup, if_pos rfl]
      have hfresh2 : ∀ q ∈ genDecoded (builtinPairs objs),
          dlookup (topDecoded objs ++
            [("builtin_wrapper", wrapperVal (builtinPairs objs))]) q.1 = none := by
        intro q hq
        have hq1 : q.1 ∈ (builtinPairs objs).map Prod.fst := by
          rw [← genDecoded_keys]
          exact List.mem_map.mpr ⟨q, hq, rfl⟩
        have htopq : q.1 ∉ dkeys (topDecoded objs) := keys_disjoint objs hnd q.1 hq1
        have hneq : q.1 ≠ "builtin_wrapper" := by
          intro he
          apply hresk
          rw [← he]
          exact (builtinPairs_keys_sublist objs).subset hq1
        rw [dlookup_append_right _ (dlookup_of_not_keys htopq), dlookup,
          if_neg (fun he => hneq he.symm)]
        rfl
      unfold mergeWrapper
      rw [hlook]
      show Except.ok (dpop (dinsertAll _ (fieldsToList (fieldsOfList _))) _) = _
      rw [fieldsToList_fieldsOfList,
        show (builtinPairs objs).map (fun q => (q.1, FarVal.gen q.2)) =
          genDecoded (builtinPairs objs) from rfl,
        dinsertAll_fresh hfresh2 hgennd, List.append_assoc, dpop_not_keys hrestop,
        show [("builtin_wrapper", wrapperVal (builtinPairs objs))] ++
          genDecoded (builtinPairs objs) =
          ("builtin_wrapper", wrapperVal (builtinPairs objs)) ::
            genDecoded (builtinPairs objs) from rfl,
        dpop_cons_self]
    · intro n o hmemo
      cases o with
      | pyfar tag fs =>
        exact dlookup_append_left _
          (dlookup_mem_nodup htopnd (mem_topDecoded hmemo rfl))
      | nd a =>
        exact dlookup_append_left _
          (dlookup_mem_nodup htopnd (mem_topDecoded hmemo rfl))
      | builtin tyName bases g =>
        have hmemb : (n, g) ∈ builtinPairs objs := mem_builtinPairs hmemo
        have hnkey : n ∈ (builtinPairs objs).map Prod.fst :=
          List.mem_map.mpr ⟨(n, g), hmemb, rfl⟩
        have htopn : n ∉ dkeys (topDecoded objs) := keys_disjoint objs hnd n hnkey
        rw [dlookup_append_right _ (dlookup_of_not_keys htopn)]
        exact dlookup_mem_nodup hgennd
          (List.mem_map.mpr ⟨(n, g), hmemb, rfl⟩)
      | foreign tyName isFilter =>
        have h := hok (n, .foreign tyName isFilter) hmemo
        simp [objOKb] at h
  · -- no builtin values: no aggregate entry, no merge
    refine ⟨FarFile.mk (with_suffix_far p)
        (if compress then Compression.stored else Compression.deflated)
        (topEntries objs), topDecoded objs, ?_, rfl, ?_, ?_⟩
    · rw [write_eq, hwl]
      show Except.ok (FarFile.mk (with_suffix_far p)
          (if compress then Compression.stored else Compression.deflated)
          (if (builtinPairs objs).length > 0 then
            topEntries objs ++ [wrapperEntry (builtinPairs objs)]
          else topEntries objs)) = _
      rw [if_neg hb]
    · have hdec := decodeStep_top reg objs [] hnd hns hok hreg2
      have hdec' : ∀ q ∈ objs, ∀ hh, topHint q.2 = some hh →
          decodeStep reg (topEntries objs) (q.1, hh) = .ok (toFar q.2) := by
        intro q hq hh hhint
        have h := hdec q hq hh hhint
        rwa [List.append_nil] at h
      have hfa1 := hintPairs_forall2 objs hdec'
      have hloop := readLoop_all_ok (hintPairs objs) (topDecoded objs) []
        hfa1 htopnd (fun _ _ => rfl)
      have hcoll : readCollect reg ⟨with_suffix_far p,
          if compress then Compression.stored else Compression.deflated,
          topEntries objs⟩ = .ok (topDecoded objs) := by
        unfold readCollect
        show readLoop reg (topEntries objs) (readHints (topEntries objs)) [] = _
        rw [readHints_topEntries objs hns htagok, hloop]
        rfl
      rw [read_eq, hcoll]
      show mergeWrapper _ = _
      unfold mergeWrapper
      rw [dlookup_of_not_keys hrestop]
    · intro n o hmemo
      cases o with
      | pyfar tag fs => exact dlookup_mem_nodup htopnd (mem_topDecoded hmemo rfl)
      | nd a => exact dlookup_mem_nodup htopnd (mem_topDecoded hmemo rfl)
      | builtin tyName bases g =>
        exfalso
        apply hb
        have hmemb : (n, g) ∈ builtinPairs objs := mem_builtinPairs hmemo
        exact List.length_pos.mpr (List.ne_nil_of_mem hmemb)
      | foreign tyName isFilter =>
        have h := hok (n, .foreign tyName isFilter) hmemo
        simp [objOKb] at h

/-! ## Insertion invariance and failure lemmas of `read` -/

theorem decode_json_aided_append {n h : String} {E : List Entry} (E' : List Entry)
    {v : FarVal} (hd : decode_json_aided n h E = some v) :
    decode_json_aided n h (E ++ E') = some v := by
  unfold decode_json_aided at hd ⊢
  cases hf : findEntry E (n ++ "/" ++ h) with
  | none => rw [hf] at hd; exact absurd hd (by simp)
  | some pl =>
    rw [findEntry_append_some E' hf]
    rw [hf] at hd
    exact hd

theorem decode_ndarray_append {path : String} {E : List Entry} (E' : List Entry)
    {v : FarVal} (hd : decode_ndarray path E = some v) :
    decode_ndarray path (E ++ E') = some v := by
  unfold decode_ndarray at hd ⊢
  cases hf : findEntry E path with
  | none => rw [hf] at hd; exact absurd hd (by simp)
  | some pl =>
    rw [findEntry_append_some E' hf]
    rw [hf] at hd
    exact hd

theorem decodeStep_append {reg : List String} {E : List Entry} (E' : List Entry)
    {nh : String × String} {v : FarVal} (h : decodeStep reg E nh = .ok v) :
    decodeStep reg (E ++ E') nh = .ok v := by
  unfold decodeStep at h ⊢
  by_cases hc : reg.contains (strTail nh.2) = true
  · rw [if_pos hc] at h ⊢
    cases hd : decode_json_aided nh.1 nh.2 E with
    | none => rw [hd] at h; exact absurd h (by simp)
    | some obj =>
      rw [hd] at h
      rw [decode_json_aided_append E' hd]
      exact h
  · rw [if_neg hc] at h ⊢
    by_cases hn : nh.2 = "$ndarray"
    · rw [if_pos hn] at h ⊢
      cases hd : decode_ndarray (nh.1 ++ "/" ++ nh.2) E with
      | none => rw [hd] at h; exact absurd h (by simp)
      | some obj =>
        rw [hd] at h
        rw [decode_ndarray_append E' hd]
        exact h
    · rw [if_neg hn] at h
      exact absurd h (by simp)

theorem readLoop_append_pres {reg : List String} {E : List Entry} (E' : List Entry) :
    ∀ (hs : List (String × String)) (coll out : List (String × FarVal)),
    readLoop reg E hs coll = .ok out → readLoop reg (E ++ E') hs coll = .ok out := by
  intro hs
  induction hs with
  | nil => intro coll out h; exact h
  | cons nh rest ih =>
    intro coll out h
    rw [readLoop] at h
    cases hstep : decodeStep reg E nh with
    | error e => rw [hstep] at h; exact absurd h (by simp)
    | ok v =>
      rw [hstep] at h
      rw [readLoop, decodeStep_append E' hstep]
      exact ih _ _ h

theorem readLoop_nodup {reg : List String} {E : List Entry} :
    ∀ (hs : List (String × String)) (coll out : List (String × FarVal)),
    readLoop reg E hs coll = .ok out → (dkeys coll).Nodup → (dkeys out).Nodup := by
  intro hs
  induction hs with
  | nil =>
    intro coll out h hnd
    rw [readLoop] at h
    injection h with h
    rw [← h]
    exact hnd
  | cons nh rest ih =>
    intro coll out h hnd
    rw [readLoop] at h
    cases hstep : decodeStep reg E nh with
    | error e => rw [hstep] at h; exact absurd h (by simp)
    | ok v =>
      rw [hstep] at h
      exact ih _ _ h (dkeys_dinsert_nodup coll nh.1 v hnd)

theorem readLoop_bad {reg : List String} {E : List Entry} :
    ∀ (pre : List (String × String)) (nh : String × String)
    (rest : List (String × String)) (coll : List (String × FarVal)),
    reg.contains (strTail nh.2) = false → nh.2 ≠ "$ndarray" →
    (∀ x ∈ pre, ∃ v, decodeStep reg E x = .ok v) →
    readLoop reg E (pre ++ nh :: rest) coll = .error unknownTypeMsg := by
  intro pre
  induction pre with
  | nil =>
    intro nh rest coll hc hn _
    rw [List.nil_append, readLoop]
    have hstep : decodeStep reg E nh = .error unknownTypeMsg := by
      unfold decodeStep
      rw [if_neg (by rw [hc]; exact Bool.false_ne_true), if_neg hn]
    rw [hstep]
  | cons x pre' ih =>
    intro nh rest coll hc hn hpre
    obtain ⟨v, hv⟩ := hpre x (List.mem_cons_self _ _)
    rw [List.cons_append, readLoop, hv]
    exact ih nh rest _ hc hn (fun y hy => hpre y (List.mem_cons_of_mem _ hy))

/-! ## Claim theorems -/

/-- C2: evaluation of the compression-mode choice of `write` (io.py line
269) at both flag values: the code maps `compress = False` to the deflated
(compressed) mode and `compress = True` to the stored (uncompressed) mode —
the opposite of what the claim and the docstring of `write` state. -/
theorem write_compression_modes :
    write "p" false [] = .ok ⟨"p.far", Compression.deflated, []⟩ ∧
    write "p" true [] = .ok ⟨"p.far", Compression.stored, []⟩ := ⟨rfl, rfl⟩

/-- C3 counterexample: `write(p, builtin_wrapper=5)` does not raise — the
value is silently absorbed into the generic aggregate under the reserved
key and the archive file is produced. -/
theorem write_reserved_name_no_error_cex :
    write "p" false [("builtin_wrapper", PyObj.builtin "int" [] (GenVal.int 5))] =
      .ok ⟨"p.far", Compression.deflated,
        [wrapperEntry [("builtin_wrapper", GenVal.int 5)]]⟩ := rfl

/-- C3 amended: writing a supported builtin value under the reserved name
`builtin_wrapper` raises nothing; the value is stored inside the generic
aggregate under the reserved key and the archive is written. -/
theorem write_reserved_name_stored (p : String) (c : Bool) (tyName : String)
    (bases : List String) (g : GenVal)
    (h : supported_builtin_types.contains tyName = true) :
    write p c [("builtin_wrapper", PyObj.builtin tyName bases g)] =
      .ok ⟨with_suffix_far p, if c then Compression.stored else Compression.deflated,
        [wrapperEntry [("builtin_wrapper", g)]]⟩ := by
  rw [write_eq]
  rw [show writeLoop [("builtin_wrapper", PyObj.builtin tyName bases g)] [] [] =
      .ok ([], [("builtin_wrapper", g)]) from by
    rw [writeLoop, if_pos h]
    rfl]
  rfl

/-- C3 witness: a concrete instance of the amended statement. -/
theorem write_reserved_name_stored_witness :
    write "w" false [("builtin_wrapper", PyObj.builtin "int" [] (GenVal.int 7))] =
      .ok ⟨with_suffix_far "w",
        if false then Compression.stored else Compression.deflated,
        [wrapperEntry [("builtin_wrapper", GenVal.int 7)]]⟩ :=
  write_reserved_name_stored "w" false "int" [] (GenVal.int 7) (by decide)

/-- C5 counterexample: a destination `a.txt` is written as `a.far`, not as
the claimed `a.txt.far` — `with_suffix` replaces an existing extension. -/
theorem write_far_extension_cex :
    write "a.txt" false [] = .ok ⟨"a.far", Compression.deflated, []⟩ ∧
    ("a.far" : String) ≠ "a.txt.far" := ⟨rfl, by decide⟩

/-- C5 amended: on a plain file name, `write` appends `.far` when the name
has no extension and replaces the extension with `.far` otherwise; a name
already ending in `.far` is used unchanged; the produced archive sits at
that normalized path. -/
theorem write_far_extension (p : String) (hp : noSlashStr p) :
    (pathSuffix p = "" → with_suffix_far p = p ++ ".far") ∧
    (pathSuffix p ≠ "" →
      ∃ stem, p = stem ++ pathSuffix p ∧ with_suffix_far p = stem ++ ".far") ∧
    (pathSuffix p = ".far" → with_suffix_far p = p) ∧
    (∀ c objs f, write p c objs = Except.ok f → f.path = with_suffix_far p) := by
  have h2 : pathSuffix p ≠ "" →
      ∃ stem, p = stem ++ pathSuffix p ∧ with_suffix_far p = stem ++ ".far" := by
    intro hsuf
    unfold pathSuffix at hsuf ⊢
    unfold with_suffix_far
    cases hrf : rfindDot p.toList with
    | none => rw [hrf] at hsuf; exact absurd rfl hsuf
    | some i =>
      rw [hrf] at hsuf
      have hsuf' : (if 0 < i ∧ i + 1 < p.toList.length then
          String.mk (p.toList.drop i) else "") ≠ "" := hsuf
      by_cases hc : 0 < i ∧ i + 1 < p.toList.length
      · refine ⟨String.mk (p.toList.take i), ?_, ?_⟩
        · show p = String.mk (p.toList.take i) ++
            (if 0 < i ∧ i + 1 < p.toList.length then String.mk (p.toList.drop i) else "")
          rw [if_pos hc]
          apply string_eq_of_data
          show p.data = p.toList.take i ++ p.toList.drop i
          rw [List.take_append_drop]
          rfl
        · show (if 0 < i ∧ i + 1 < p.toList.length then
              String.mk (p.toList.take i ++ ".far".toList)
            else String.mk (p.toList ++ ".far".toList)) = _
          rw [if_pos hc]
          apply string_eq_of_data
          rfl
      · rw [if_neg hc] at hsuf'
        exact absurd rfl hsuf'
  refine ⟨?_, h2, ?_, ?_⟩
  · intro hsuf
    unfold pathSuffix at hsuf
    unfold with_suffix_far
    cases hrf : rfindDot p.toList with
    | none =>
      apply string_eq_of_data
      rfl
    | some i =>
      rw [hrf] at hsuf
      have hsuf' : (if 0 < i ∧ i + 1 < p.toList.length then
          String.mk (p.toList.drop i) else "") = "" := hsuf
      show (if 0 < i ∧ i + 1 < p.toList.length then
          String.mk (p.toList.take i ++ ".far".toList)
        else String.mk (p.toList ++ ".far".toList)) = _
      by_cases hc : 0 < i ∧ i + 1 < p.toList.length
      · rw [if_pos hc] at hsuf'
        exfalso
        have hdrop : p.toList.drop i = [] := congrArg String.data hsuf'
        have hlen : p.toList.length - i = 0 := by
          have h' := congrArg List.length hdrop
          rw [List.length_drop] at h'
          exact h'
        omega
      · rw [if_neg hc]
        apply string_eq_of_data
        rfl
  · intro hfar
    obtain ⟨stem, hp', hw⟩ := h2 (by rw [hfar]; intro h; exact absurd h (by decide))
    rw [hw, hp', hfar]
  · intro c objs f h
    rw [write_eq] at h
    cases hwl : writeLoop objs [] [] with
    | error e => rw [hwl] at h; exact absurd h (by simp)
    | ok r =>
      obtain ⟨es, w⟩ := r
      rw [hwl] at h
      injection h with h
      rw [← h]

/-- C5 witness: the amended statement at the concrete destination `a.txt`:
its extension is replaced, giving `a.far`. -/
theorem write_far_extension_witness :
    (pathSuffix "a.txt" = "" → with_suffix_far "a.txt" = "a.txt" ++ ".far") ∧
    (pathSuffix "a.txt" ≠ "" →
      ∃ stem, ("a.txt" : String) = stem ++ pathSuffix "a.txt" ∧
        with_suffix_far "a.txt" = stem ++ ".far") ∧
    (pathSuffix "a.txt" = ".far" → with_suffix_far "a.txt" = "a.txt") ∧
    (∀ c objs f, write "a.txt" c objs = Except.ok f →
      f.path = with_suffix_far "a.txt") :=
  write_far_extension "a.txt" (by decide)

/-- C9: the builtin branch of `write` tests exact type identity
(`type(obj) in codec._supported_builtin_types()`, io.py line 278): a value
whose concrete type is a strict subclass of a supported builtin (for
example a named tuple, a subclass of `tuple`) and which matches neither the
pyfar nor the numpy category is rejected with the unsupported-type error,
not encoded. -/
theorem builtin_type_identity (p : String) (c : Bool) (n tyName : String)
    (bases : List String) (g : GenVal)
    (hty : supported_builtin_types.contains tyName = false)
    (hsub : ∃ b ∈ bases, b ∈ supported_builtin_types) :
    write p c [(n, PyObj.builtin tyName bases g)] =
      .error (typeErrorMsg tyName false) := by
  rw [write_eq]
  rw [show writeLoop [(n, PyObj.builtin tyName bases g)] [] [] =
      .error (typeErrorMsg tyName false) from by
    rw [writeLoop, if_neg (by rw [hty]; exact Bool.false_ne_true)]]

/-- C9 witness: a named-tuple-like object of concrete type `Point` deriving
from `tuple` is rejected. -/
theorem builtin_type_identity_witness :
    write "p" false [("t", PyObj.builtin "Point" ["tuple"]
      (GenVal.tuple (GenList.cons (GenVal.int 1) GenList.nil)))] =
      .error (typeErrorMsg "Point" false) :=
  builtin_type_identity "p" false "t" "Point" ["tuple"]
    (GenVal.tuple (GenList.cons (GenVal.int 1) GenList.nil))
    (by decide) ⟨"tuple", by decide, by decide⟩

theorem dispatchErrMsg_names (o : PyObj) :
    ∃ s, dispatchErrMsg o = "Objects of type <class " ++ pyTypeName o ++ s := by
  cases o with
  | pyfar tag fs => exact ⟨"> cannot be written to disk.", rfl⟩
  | nd a => exact ⟨"> cannot be written to disk.", rfl⟩
  | builtin tyName bases g => exact ⟨"> cannot be written to disk.", rfl⟩
  | foreign tyName isFilter =>
    cases isFilter with
    | false => exact ⟨"> cannot be written to disk.", rfl⟩
    | true =>
      exact ⟨"> cannot be written to disk." ++ ". Consider casting to <class Filter>",
        string_append_assoc _ _ _⟩

/-- C4: when some supplied object matches no supported category, `write`
raises a `TypeError` whose message names the concrete type of an
unsupported supplied object; because the error propagates out of the
encoding loop before the destination file is opened (io.py line 291), no
file at the destination is created or modified by the call — in the model,
`write` produces no `FarFile`. -/
theorem write_unsupported_rejected (p : String) (c : Bool)
    (objs : List (String × PyObj)) (n : String) (o : PyObj)
    (hmem : (n, o) ∈ objs) (hbad : objSupportedb o = false) :
    ∃ n2 o2 suffix, (n2, o2) ∈ objs ∧ objSupportedb o2 = false ∧
      write p c objs = .error ("Objects of type <class " ++ pyTypeName o2 ++ suffix) := by
  obtain ⟨n2, o2, hm2, hb2, he2⟩ := writeLoop_error objs [] [] n o hmem hbad
  obtain ⟨s, hs⟩ := dispatchErrMsg_names o2
  refine ⟨n2, o2, s, hm2, hb2, ?_⟩
  rw [write_eq, he2, hs]

/-- C4 witness: writing a mix of one array and one object of an
unregistered class fails with the message naming that class. -/
theorem write_unsupported_rejected_witness :
    ∃ n2 o2 suffix,
      (n2, o2) ∈ [("a", PyObj.nd ⟨DType.uint8, [1], [3]⟩),
        ("bad", PyObj.foreign "MyClass" false)] ∧
      objSupportedb o2 = false ∧
      write "p" false [("a", PyObj.nd ⟨DType.uint8, [1], [3]⟩),
        ("bad", PyObj.foreign "MyClass" false)] =
        .error ("Objects of type <class " ++ pyTypeName o2 ++ suffix) :=
  write_unsupported_rejected "p" false
    [("a", PyObj.nd ⟨DType.uint8, [1], [3]⟩), ("bad", PyObj.foreign "MyClass" false)]
    "bad" (PyObj.foreign "MyClass" false)
    (List.mem_cons_of_mem _ (List.mem_cons_self _ _)) rfl

/-- C6: an archive containing a type-tagged entry whose tag is neither a
registered pyfar type nor `$ndarray` makes the whole `read` fail with the
version-mismatch message (io.py lines 219–223), provided every entry the
loop visits earlier decodes; no partial collection is returned. -/
theorem read_unknown_tag_fails (reg : List String) (zf : FarFile)
    (pre rest : List (String × String)) (nh : String × String)
    (hh : readHints zf.entries = pre ++ nh :: rest)
    (hreg : reg.contains (strTail nh.2) = false)
    (hnd : nh.2 ≠ "$ndarray")
    (hpre : ∀ x ∈ pre, ∃ v, decodeStep reg zf.entries x = .ok v) :
    read reg zf = .error unknownTypeMsg := by
  rw [read_eq]
  have hcoll : readCollect reg zf = .error unknownTypeMsg := by
    unfold readCollect
    rw [hh]
    exact readLoop_bad pre nh rest [] hreg hnd hpre
  rw [hcoll]

/-- C6 witness: a single entry tagged `$Weird` (unknown to the registry)
fails the whole read with the version-mismatch message. -/
theorem read_unknown_tag_fails_witness :
    read ["Signal"] ⟨"p.far", Compression.stored, [⟨"a/$Weird", Payload.txt Json.jnull⟩]⟩ =
      .error unknownTypeMsg :=
  read_unknown_tag_fails ["Signal"]
    ⟨"p.far", Compression.stored, [⟨"a/$Weird", Payload.txt Json.jnull⟩]⟩
    [] [] ("a", "$Weird") rfl (by decide) (by decide)
    (fun x hx => absurd hx (List.not_mem_nil x))

/-- C7: after any successful `read`, the reserved aggregate key
`builtin_wrapper` is not a key of the returned mapping, however many
generic-kind objects were written; moreover the aggregate's own fields are
merged into the returned mapping under their original names. -/
theorem read_reserved_key_absent (reg : List String) (zf : FarFile)
    (res : List (String × FarVal)) (h : read reg zf = .ok res) :
    dlookup res "builtin_wrapper" = none ∧
    (∀ coll tag fs, readCollect reg zf = .ok coll →
      dlookup coll "builtin_wrapper" = some (.comp tag fs) →
      (dkeys (fieldsToList fs)).Nodup →
      ∀ k v, (k, v) ∈ fieldsToList fs → k ≠ "builtin_wrapper" →
        dlookup res k = some v) := by
  rw [read_eq] at h
  cases hcoll : readCollect reg zf with
  | error e => rw [hcoll] at h; exact absurd h (by simp)
  | ok coll =>
    rw [hcoll] at h
    have hnd : (dkeys coll).Nodup :=
      readLoop_nodup (readHints zf.entries) [] coll hcoll List.nodup_nil
    have h' : mergeWrapper coll = Except.ok res := h
    unfold mergeWrapper at h'
    cases hlk : dlookup coll "builtin_wrapper" with
    | none =>
      rw [hlk] at h'
      injection h' with h'
      constructor
      · rw [← h']
        exact hlk
      · intro coll' tag fs hc' hl' _ k v _ _
        injection hc' with hc'
        rw [← hc'] at hl'
        rw [hlk] at hl'
        exact absurd hl' (by simp)
    | some fv =>
      rw [hlk] at h'
      cases fv with
      | comp tag0 fs0 =>
        have h'' : Except.ok (dpop (dinsertAll coll (fieldsToList fs0))
            "builtin_wrapper") = Except.ok res := h'
        injection h'' with h''
        constructor
        · rw [← h'']
          exact dlookup_dpop_self _ _ (dkeys_dinsertAll_nodup _ _ hnd)
        · intro coll' tag fs hc' hl' hfnd k v hkv hkne
          injection hc' with hc'
          rw [← hc'] at hl'
          rw [hlk] at hl'
          injection hl' with hl'
          injection hl' with hl1 hl2
          rw [← h'', dlookup_dpop_ne hkne, hl2]
          exact dinsertAll_lookup_mem _ _ hfnd hkv
      | arr a =>
        have h'' : Except.error "AttributeError: object has no attribute items" =
            Except.ok res := h'
        exact absurd h'' (by simp)
      | gen g =>
        have h'' : Except.error "AttributeError: object has no attribute items" =
            Except.ok res := h'
        exact absurd h'' (by simp)

/-- C7 witness: an archive holding one aggregate with a single field `x`
reads to a mapping containing `x` but not the reserved key. -/
theorem read_reserved_key_absent_witness :
    dlookup [("x", FarVal.gen (GenVal.int 1))] "builtin_wrapper" = none ∧
    (∀ coll tag fs,
      readCollect ["BuiltinsWrapper"] ⟨"p.far", Compression.stored,
        [⟨"builtin_wrapper/$BuiltinsWrapper",
          Payload.txt (encodeFar (wrapperVal [("x", GenVal.int 1)]))⟩]⟩ = .ok coll →
      dlookup coll "builtin_wrapper" = some (.comp tag fs) →
      (dkeys (fieldsToList fs)).Nodup →
      ∀ k v, (k, v) ∈ fieldsToList fs → k ≠ "builtin_wrapper" →
        dlookup [("x", FarVal.gen (GenVal.int 1))] k = some v) :=
  read_reserved_key_absent ["BuiltinsWrapper"]
    ⟨"p.far", Compression.stored,
      [⟨"builtin_wrapper/$BuiltinsWrapper",
        Payload.txt (encodeFar (wrapperVal [("x", GenVal.int 1)]))⟩]⟩
    [("x", FarVal.gen (GenVal.int 1))] rfl

/-- C8: the `compress` flag never changes decoded content: whenever two
`write` calls with the same path and objects but opposite `compress` flags
both succeed, reading the two produced archives gives identical results
(the flag enters only the archive's entry-compression mode, which `read`
never consults). -/
theorem read_compress_invariant (reg : List String) (p : String)
    (objs : List (String × PyObj)) (f1 f2 : FarFile)
    (h1 : write p true objs = .ok f1) (h2 : write p false objs = .ok f2) :
    read reg f1 = read reg f2 := by
  rw [write_eq] at h1 h2
  cases hwl : writeLoop objs [] [] with
  | error e => rw [hwl] at h1; exact absurd h1 (by simp)
  | ok r =>
    obtain ⟨es, w⟩ := r
    rw [hwl] at h1 h2
    injection h1 with h1
    injection h2 with h2
    rw [← h1, ← h2]
    rfl

/-- C8 witness: a one-object archive written with both flag values reads
identically. -/
theorem read_compress_invariant_witness :
    read ["BuiltinsWrapper"] ⟨"p.far", Compression.stored,
      [wrapperEntry [("x", GenVal.int 3)]]⟩ =
    read ["BuiltinsWrapper"] ⟨"p.far", Compression.deflated,
      [wrapperEntry [("x", GenVal.int 3)]]⟩ :=
  read_compress_invariant ["BuiltinsWrapper"] "p"
    [("x", PyObj.builtin "int" [] (GenVal.int 3))]
    ⟨"p.far", Compression.stored, [wrapperEntry [("x", GenVal.int 3)]]⟩
    ⟨"p.far", Compression.deflated, [wrapperEntry [("x", GenVal.int 3)]]⟩
    rfl rfl

/-- C10: an archive entry whose full path contains no `/$` marker is
silently ignored by `read`: appended to any archive that reads
successfully, it neither causes an error nor contributes a key — the
result is unchanged. -/
theorem read_ignores_untagged_entry (reg : List String) (zf : FarFile) (e : Entry)
    (res : List (String × FarVal))
    (he : hasSlashDollarS e.path = false)
    (h : read reg zf = .ok res) :
    read reg ⟨zf.path, zf.compression, zf.entries ++ [e]⟩ = .ok res := by
  rw [read_eq] at h
  cases hcoll : readCollect reg zf with
  | error er => rw [hcoll] at h; exact absurd h (by simp)
  | ok coll =>
    rw [hcoll] at h
    have hhints : readHints (zf.entries ++ [e]) = readHints zf.entries := by
      rw [readHints_append,
        show readHints [e] = [] from by
          unfold readHints
          rw [List.filter_cons_of_neg (by rw [he]; exact Bool.false_ne_true)]
          rfl,
        List.append_nil]
    have hcoll2 : readCollect reg ⟨zf.path, zf.compression, zf.entries ++ [e]⟩ =
        .ok coll := by
      unfold readCollect
      show readLoop reg (zf.entries ++ [e]) (readHints (zf.entries ++ [e])) [] = _
      rw [hhints]
      exact readLoop_append_pres [e] _ _ _ hcoll
    rw [read_eq, hcoll2]
    exact h

/-- C10 witness: appending a marker-less `notes.txt` entry to an archive
with one array leaves the read result unchanged. -/
theorem read_ignores_untagged_entry_witness :
    read [] ⟨"p.far", Compression.stored,
      [⟨"a/$ndarray", Payload.arrp ⟨DType.uint8, [1], true⟩ [7]⟩] ++
        [⟨"notes.txt", Payload.txt Json.jnull⟩]⟩ =
      .ok [("a", FarVal.arr ⟨DType.uint8, [1], [7]⟩)] :=
  read_ignores_untagged_entry []
    ⟨"p.far", Compression.stored,
      [⟨"a/$ndarray", Payload.arrp ⟨DType.uint8, [1], true⟩ [7]⟩]⟩
    ⟨"notes.txt", Payload.txt Json.jnull⟩
    [("a", FarVal.arr ⟨DType.uint8, [1], [7]⟩)]
    (by decide) rfl

/-- C1 counterexample: at the reserved name `builtin_wrapper` the round
trip fails — `write` silently stores the value inside the generic
aggregate, and `read` merges the aggregate and pops the reserved key, so
the returned mapping is empty and its entry for the written name is
missing rather than value-equal to the written value. -/
theorem write_read_roundtrip_cex :
    write "p" false [("builtin_wrapper", PyObj.builtin "int" [] (GenVal.int 6))] =
      .ok ⟨"p.far", Compression.deflated,
        [wrapperEntry [("builtin_wrapper", GenVal.int 6)]]⟩ ∧
    read ["BuiltinsWrapper"] ⟨"p.far", Compression.deflated,
      [wrapperEntry [("builtin_wrapper", GenVal.int 6)]]⟩ =
      .ok ([] : List (String × FarVal)) ∧
    dlookup ([] : List (String × FarVal)) "builtin_wrapper" = none :=
  ⟨rfl, rfl, rfl⟩

/-- C1 witness: a concrete mixed archive — a composite object with an
array field (singleton shape) and a generic field, a zero-length array,
and a nested builtin container — written and read back value-equal. -/
theorem write_read_roundtrip_witness :
    ∃ f res,
      write "ws" false
        [("sig", PyObj.pyfar "Signal" (Fields.fcons "data"
            (FarVal.arr ⟨DType.float64, [1], [4607182418800017408]⟩)
            (Fields.fcons "rate" (FarVal.gen (GenVal.int 44100)) Fields.fnil))),
         ("z", PyObj.nd ⟨DType.int16, [0], []⟩),
         ("xs", PyObj.builtin "list" []
            (GenVal.list (GenList.cons (GenVal.int 1)
              (GenList.cons (GenVal.list (GenList.cons (GenVal.str "a") GenList.nil))
                GenList.nil))))] = .ok f ∧
      f.path = with_suffix_far "ws" ∧
      read ["Signal", "BuiltinsWrapper"] f = .ok res ∧
      ∀ n o, (n, o) ∈
        [("sig", PyObj.pyfar "Signal" (Fields.fcons "data"
            (FarVal.arr ⟨DType.float64, [1], [4607182418800017408]⟩)
            (Fields.fcons "rate" (FarVal.gen (GenVal.int 44100)) Fields.fnil))),
         ("z", PyObj.nd ⟨DType.int16, [0], []⟩),
         ("xs", PyObj.builtin "list" []
            (GenVal.list (GenList.cons (GenVal.int 1)
              (GenList.cons (GenVal.list (GenList.cons (GenVal.str "a") GenList.nil))
                GenList.nil))))] → dlookup res n = some (toFar o) :=
  write_read_roundtrip ["Signal", "BuiltinsWrapper"] "ws" false
    [("sig", PyObj.pyfar "Signal" (Fields.fcons "data"
        (FarVal.arr ⟨DType.float64, [1], [4607182418800017408]⟩)
        (Fields.fcons "rate" (FarVal.gen (GenVal.int 44100)) Fields.fnil))),
     ("z", PyObj.nd ⟨DType.int16, [0], []⟩),
     ("xs", PyObj.builtin "list" []
        (GenVal.list (GenList.cons (GenVal.int 1)
          (GenList.cons (GenVal.list (GenList.cons (GenVal.str "a") GenList.nil))
            GenList.nil))))]
    (by decide) (by decide) (by decide) (by decide) (by decide) (by decide)

end Pyfar
